import Mathlib

/-!
Verification of the AcidBjorn synchronization core.

This file is a shallow embedding of the synchronization runtime:

* `SyncEngine` (src/core/SyncEngine.ts): signature comparison
  (`isSameSignature`), the upload / download job bodies built by
  `createUploadJob` / `createDownloadJob` (modelled as the pure functions
  `uploadRun` / `downloadRun` over an explicit environment), path filtering
  (`matchesPattern`, `isExcluded`), and the offline-buffering layer.
* `TransferQueue` (src/core/TransferQueue.ts): the whole class is modelled
  as a labelled transition system `applyEvent` on `QState`; asynchronous
  completion of a running job, retry timers, and so on are separate events.

Machine integers are modelled as `Nat` / `Int` (JavaScript numbers stay far
below 2^53 here, so no overflow modelling is needed).
-/

namespace AcidBjorn

/-! ### Basic data (TransferQueue.ts) -/

/-- `TransferPriority` from TransferQueue.ts. -/
inductive TransferPriority where
  | high
  | normal
  | low
deriving DecidableEq

/-- `priorityRank` from TransferQueue.ts: `high` 0, `normal` 1, `low` 2. -/
def priorityRank : TransferPriority → Nat
  | .high => 0
  | .normal => 1
  | .low => 2

/-- A `TransferJob` as far as the queue inspects it.  The `abortController`
is modelled as a set of aborted ids in the queue state, and the `run`
action as external `finishOk` / `finishErr` events. -/
structure Job where
  id : Nat
  key : String
  prio : TransferPriority
  retries : Nat
  maxRetries : Nat
deriving DecidableEq

/-- The backoff delay computed in `TransferQueue.execute`:
`Math.min(30000, Math.pow(2, job.retries) * 500)`, evaluated after
`job.retries += 1`.  The argument is the incremented retry count. -/
def retryDelayMs (retries : Nat) : Nat :=
  min 30000 (2 ^ retries * 500)

/-! ### Signatures (SyncEngine.ts) -/

/-- `SyncSignature` from SyncEngine.ts: size in bytes and mtime in seconds. -/
structure SyncSignature where
  size : Nat
  mtimeSec : Int
deriving DecidableEq

/-- `SyncEngine.isSameSignature`:
`a.size === b.size && Math.abs(a.mtimeSec - b.mtimeSec) <= 2`. -/
def isSameSignature (a b : SyncSignature) : Bool :=
  a.size == b.size && decide ((a.mtimeSec - b.mtimeSec).natAbs ≤ 2)

/-- The comparison the spec describes, stated in the words of the spec:
sizes equal and mtime-in-seconds values differing by at most 2. -/
def specSigEq (a b : SyncSignature) : Prop :=
  a.size = b.size ∧ (a.mtimeSec - b.mtimeSec).natAbs ≤ 2

/-! ### Remote / local effects performed by job bodies -/

/-- The externally visible filesystem / transport operations a job body can
attempt, in order.  `put` is `sftp.fastPut`, `renameRemote` is
`sftp.rename`, `copyLocal` is `fs.copyFile`, `getRemote` is `sftp.fastGet`,
`renameLocal` is `fs.rename`, `recordConflict` is
`treeDataProvider.addConflict`. -/
inductive RemoteEffect where
  | put (localSrc dst : String)
  | renameRemote (src dst : String)
  | copyLocal (src dst : String)
  | getRemote (src dst : String)
  | renameLocal (src dst : String)
  | recordConflict (sourcePath localArtifact remoteArtifact : String)
deriving DecidableEq

/-- Whether an effect is a transfer call on the remote side (a put or a
remote rename), the operations claim C6 counts. -/
def isTransferCall : RemoteEffect → Bool
  | .put _ _ => true
  | .renameRemote _ _ => true
  | _ => false

/-- Whether an effect writes (creates, overwrites or removes) the remote
path `p`.  Only puts and remote renames modify remote files. -/
def touchesRemote (eff : RemoteEffect) (p : String) : Bool :=
  match eff with
  | .put _ d => d == p
  | .renameRemote s d => s == p || d == p
  | _ => false

/-! ### The upload job body (`SyncEngine.createUploadJob`) -/

/-- Environment of one execution of the `run` closure built by
`SyncEngine.createUploadJob`: the local stat result, the remote stat result
(`none` models the caught stat failure for a missing remote file), the
baseline from `lastSyncedSignature`, whether the put and the rename
succeed, and the `Date.now()` timestamp string used for conflict artifact
names. -/
structure UploadEnv where
  localPath : String
  remotePath : String
  localSig : SyncSignature
  remoteSig : Option SyncSignature
  baseline : Option SyncSignature
  putOk : Bool
  renameOk : Bool
  ts : String
deriving DecidableEq

/-- `tempRemotePath` in `createUploadJob`. -/
def tempRemotePath (e : UploadEnv) : String := e.remotePath ++ ".__uploading__"

/-- `localConflict` in `createConflictArtifacts`. -/
def conflictLocalPath (e : UploadEnv) : String :=
  e.localPath ++ ".conflict.LOCAL." ++ e.ts

/-- `remoteConflict` in `createConflictArtifacts`. -/
def conflictRemotePath (e : UploadEnv) : String :=
  e.localPath ++ ".conflict.REMOTE." ++ e.ts

/-- Result of one execution of a job body: the effect trace, whether the
promise resolved (`ok`), the value written to `lastSyncedSignature` for the
path (if any), and whether the `pendingChanges` entry was deleted. -/
structure RunOutcome where
  effects : List RemoteEffect
  ok : Bool
  sigUpdate : Option SyncSignature
  pendingDeleted : Bool
deriving DecidableEq

/-- The skip test in `createUploadJob`:
`remoteStat && isSameSignature(localSignature, remoteSignature)`. -/
def uploadSkips (e : UploadEnv) : Bool :=
  match e.remoteSig with
  | some rs => isSameSignature e.localSig rs
  | none => false

/-- The three-way conflict test in `createUploadJob`:
`known && !isSameSignature(known, localSignature) && remoteStat &&
!isSameSignature(known, remoteSignature)`. -/
def uploadConflicts (e : UploadEnv) : Bool :=
  match e.baseline, e.remoteSig with
  | some known, some rs =>
      !isSameSignature known e.localSig && !isSameSignature known rs
  | _, _ => false

/-- The `run` closure of `createUploadJob`, step for step: skip when the
remote signature matches, otherwise detect a three-way conflict and create
artifacts via `createConflictArtifacts`, otherwise put to the temporary
remote path, rename onto the final remote path, record the signature and
clear the pending change.  A failing put or rename rejects the promise
before any ledger write. -/
def uploadRun (e : UploadEnv) : RunOutcome :=
  if uploadSkips e then
    { effects := [], ok := true, sigUpdate := some e.localSig, pendingDeleted := false }
  else if uploadConflicts e then
    { effects := [ .copyLocal e.localPath (conflictLocalPath e),
                   .getRemote e.remotePath (conflictRemotePath e),
                   .recordConflict e.localPath (conflictLocalPath e) (conflictRemotePath e) ],
      ok := true, sigUpdate := none, pendingDeleted := false }
  else if e.putOk then
    if e.renameOk then
      { effects := [ .put e.localPath (tempRemotePath e),
                     .renameRemote (tempRemotePath e) e.remotePath ],
        ok := true, sigUpdate := some e.localSig, pendingDeleted := true }
    else
      { effects := [ .put e.localPath (tempRemotePath e),
                     .renameRemote (tempRemotePath e) e.remotePath ],
        ok := false, sigUpdate := none, pendingDeleted := false }
  else
    { effects := [ .put e.localPath (tempRemotePath e) ],
      ok := false, sigUpdate := none, pendingDeleted := false }

/-! ### The download job body (`SyncEngine.createDownloadJob`) -/

/-- Environment of one execution of the `run` closure built by
`SyncEngine.createDownloadJob`.  `remoteSig` is the (mandatory) remote stat
result; `localSig` is `none` when the local stat fails. -/
structure DownloadEnv where
  localPath : String
  remotePath : String
  remoteSig : SyncSignature
  localSig : Option SyncSignature
  getOk : Bool
deriving DecidableEq

/-- `tempLocalPath` in `createDownloadJob`. -/
def tempLocalPath (e : DownloadEnv) : String := e.localPath ++ ".__downloading__"

/-- The skip test in `createDownloadJob`: a local file exists and
`isSameSignature(localSignature, remoteSignature)`. -/
def downloadSkips (e : DownloadEnv) : Bool :=
  match e.localSig with
  | some ls => isSameSignature ls e.remoteSig
  | none => false

/-- The `run` closure of `createDownloadJob` (local mkdir and the watcher
suppression are not externally visible transfers and are omitted from the
trace; the local rename is assumed to succeed once the get succeeded). -/
def downloadRun (e : DownloadEnv) : RunOutcome :=
  if downloadSkips e then
    { effects := [], ok := true, sigUpdate := e.localSig, pendingDeleted := false }
  else if e.getOk then
    { effects := [ .getRemote e.remotePath (tempLocalPath e),
                   .renameLocal (tempLocalPath e) e.localPath ],
      ok := true, sigUpdate := some e.remoteSig, pendingDeleted := false }
  else
    { effects := [ .getRemote e.remotePath (tempLocalPath e) ],
      ok := false, sigUpdate := none, pendingDeleted := false }

/-! ### Path filtering (`SyncEngine.matchesPattern`, `SyncEngine.isExcluded`)

`matchesPattern` escapes regex metacharacters in the pattern, replaces
`**` by `.*` (any run of characters) and then `*` by `[^/]*` (any run of
non-slash characters), and tests the anchored regex against the whole
path.  For patterns built from plain characters and stars (all patterns in
the claims) this is exactly the glob matcher below. -/

/-- One token of a compiled exclusion pattern. -/
inductive GlobTok where
  | lit (c : Char)
  | star
  | dstar
deriving DecidableEq

/-- Tokenization of a pattern: `**` first (matching the replace order in
`matchesPattern`), then `*`, all other characters literal. -/
def parseGlob : List Char → List GlobTok
  | [] => []
  | '*' :: '*' :: rest => .dstar :: parseGlob rest
  | '*' :: rest => .star :: parseGlob rest
  | c :: rest => .lit c :: parseGlob rest

/-- The suffixes of `ds` reachable by consuming a (possibly empty) run of
non-`'/'` characters: the remainders `[^/]*` can leave for the rest of the
pattern. -/
def starSuffixes : List Char → List (List Char)
  | [] => [[]]
  | d :: t => (d :: t) :: (if d == '/' then [] else starSuffixes t)

/-- All suffixes of `ds`: the remainders `.*` can leave. -/
def allSuffixes : List Char → List (List Char)
  | [] => [[]]
  | d :: t => (d :: t) :: allSuffixes t

/-- Anchored matching of a compiled pattern against a path: `star` matches
any run of non-`'/'` characters, `dstar` any run of characters. -/
def globMatch : List GlobTok → List Char → Bool
  | [], ds => ds.isEmpty
  | .lit _ :: _, [] => false
  | .lit c :: ps, d :: ds => c == d && globMatch ps ds
  | .star :: ps, ds => (starSuffixes ds).any fun t => globMatch ps t
  | .dstar :: ps, ds => (allSuffixes ds).any fun t => globMatch ps t

/-- `SyncEngine.matchesPattern`. -/
def matchesPattern (filePath pattern : String) : Bool :=
  globMatch (parseGlob pattern.toList) filePath.toList

/-- Leading-segment test on character lists (`String.prototype.startsWith`). -/
def startsWithL : List Char → List Char → Bool
  | _, [] => true
  | [], _ :: _ => false
  | c :: cs, d :: ds => c == d && startsWithL cs ds

/-- Contiguous-substring test on character lists
(`String.prototype.includes`). -/
def containsSub : List Char → List Char → Bool
  | [], sub => startsWithL [] sub
  | c :: t, sub => startsWithL (c :: t) sub || containsSub t sub

/-- `SyncEngine.isExcluded`: some exclusion pattern matches the relative
path as a glob, or occurs in it literally as a substring. -/
def isExcluded (relativePath : String) (exclusions : List String) : Bool :=
  exclusions.any fun p =>
    matchesPattern relativePath p || containsSub relativePath.toList p.toList

/-- The number of jobs `SyncEngine.syncFile` builds for a change
notification with the given workspace-relative path, after the managed-root
and enabled guards: zero when the relative path is empty, escapes the root,
or is excluded; otherwise exactly one job is created (and enqueued or
parked). -/
def syncFileJobCount (relativePath : String) (exclusions : List String) : Nat :=
  if relativePath.isEmpty
      || startsWithL relativePath.toList ['.', '.']
      || isExcluded relativePath exclusions then 0 else 1

/-! ## Claim C5 (retry backoff) -/

/-- Counterexample to claim C5: the code increments `job.retries` before
computing the delay, so the delay before the first retry is
`min(30000, 2^1 * 500) = 1000` ms, not the `min(30000, 500 * 2^0) = 500` ms
the claim states. -/
theorem retry_backoff_first_delay_not_500 :
    retryDelayMs 1 = 1000 ∧ min 30000 (500 * 2 ^ (1 - 1)) = 500 ∧ (1000 : Nat) ≠ 500 := by
  refine ⟨by decide, by decide, by decide⟩

/-- Claim C5, amended: the delay before the k-th retry (the code computes
it with the already incremented retry count k) is `min(30000, 500 * 2^k)`
milliseconds; in particular the first retry waits 1000 ms and the second
2000 ms, still doubling and capped at 30 s. -/
theorem retry_backoff_schedule :
    (∀ k : Nat, retryDelayMs k = min 30000 (500 * 2 ^ k))
      ∧ retryDelayMs 1 = 1000 ∧ retryDelayMs 2 = 2000 ∧ retryDelayMs 10 = 30000 := by
  refine ⟨fun k => ?_, by decide, by decide, by decide⟩
  simp [retryDelayMs, Nat.mul_comm]

/-! ## Claim C10 (signature comparison) -/

/-- Claim C10: the signature comparison used by every skip and conflict
decision holds exactly when the sizes are equal and the mtimes differ by at
most two seconds; consequently an upload and a download whose sizes match
and whose mtimes differ by one or two seconds are skipped with no transfer
calls. -/
theorem signature_comparison_tolerance :
    (∀ a b : SyncSignature, isSameSignature a b = true ↔ specSigEq a b)
      ∧ (∀ (e : UploadEnv) (rs : SyncSignature), e.remoteSig = some rs →
          e.localSig.size = rs.size → (e.localSig.mtimeSec - rs.mtimeSec).natAbs ≤ 2 →
          (uploadRun e).effects = [] ∧ (uploadRun e).ok = true)
      ∧ (∀ (d : DownloadEnv) (ls : SyncSignature), d.localSig = some ls →
          ls.size = d.remoteSig.size → (ls.mtimeSec - d.remoteSig.mtimeSec).natAbs ≤ 2 →
          (downloadRun d).effects = [] ∧ (downloadRun d).ok = true) := by
  have hiff : ∀ a b : SyncSignature, isSameSignature a b = true ↔ specSigEq a b := by
    intro a b
    simp [isSameSignature, specSigEq]
  refine ⟨hiff, ?_, ?_⟩
  · intro e rs hr hsz hmt
    have hsame : isSameSignature e.localSig rs = true := (hiff _ _).mpr ⟨hsz, hmt⟩
    have hskip : uploadSkips e = true := by simp [uploadSkips, hr, hsame]
    simp [uploadRun, hskip]
  · intro d ls hl hsz hmt
    have hsame : isSameSignature ls d.remoteSig = true := (hiff _ _).mpr ⟨hsz, hmt⟩
    have hskip : downloadSkips d = true := by simp [downloadSkips, hl, hsame]
    simp [downloadRun, hskip]

/-- A concrete upload environment whose local and remote signatures have
equal size and mtimes two seconds apart. -/
def envMtimeDiff2 : UploadEnv :=
  { localPath := "/w/a", remotePath := "/r/a", localSig := ⟨5, 10⟩,
    remoteSig := some ⟨5, 12⟩, baseline := none, putOk := true,
    renameOk := true, ts := "1" }

/-- Witness for C10 at concrete inputs: signatures of equal size whose
mtimes differ by 2 seconds compare equal, and a concrete upload in that
situation is skipped. -/
theorem signature_comparison_tolerance_witness :
    isSameSignature ⟨5, 10⟩ ⟨5, 12⟩ = true
      ∧ (uploadRun envMtimeDiff2).effects = []
      ∧ (uploadRun envMtimeDiff2).ok = true := by
  refine ⟨(signature_comparison_tolerance.1 _ _).mpr ⟨rfl, by decide⟩, ?_⟩
  exact signature_comparison_tolerance.2.1 envMtimeDiff2 ⟨5, 12⟩ rfl rfl (by decide)

/-! ## Claim C6 (idempotent upload) -/

/-- Claim C6: when the remote file exists and its signature equals the
local signature, the upload job body performs zero transfer calls (no put,
no rename) and resolves successfully. -/
theorem upload_matching_signature_skips (e : UploadEnv) (rs : SyncSignature)
    (hr : e.remoteSig = some rs)
    (hsame : isSameSignature e.localSig rs = true) :
    (uploadRun e).effects = [] ∧ (uploadRun e).ok = true
      ∧ ((uploadRun e).effects.filter isTransferCall).length = 0 := by
  have hskip : uploadSkips e = true := by simp [uploadSkips, hr, hsame]
  simp [uploadRun, hskip]

/-- A concrete upload environment whose remote signature equals the local
signature exactly. -/
def envInSync : UploadEnv :=
  { localPath := "/w/b", remotePath := "/r/b", localSig := ⟨7, 100⟩,
    remoteSig := some ⟨7, 100⟩, baseline := some ⟨1, 1⟩, putOk := false,
    renameOk := false, ts := "2" }

/-- Witness for C6 at a concrete input. -/
theorem upload_matching_signature_skips_witness :
    (uploadRun envInSync).effects = [] ∧ (uploadRun envInSync).ok = true := by
  have h := upload_matching_signature_skips envInSync ⟨7, 100⟩ rfl (by decide)
  exact ⟨h.1, h.2.1⟩

/-! ## Claim C1 (three-way conflict) -/

/-- Claim C1: with a recorded baseline S0 and current local / remote
signatures S1, S2 pairwise unequal under the engine comparison, the upload
job body copies the local file to one local conflict artifact, fetches the
remote file into one remote conflict artifact (a distinct path beside the
original), records exactly one conflict, performs no put and no rename, and
never writes the remote path, leaving the remote file at S2. -/
theorem upload_three_way_conflict (e : UploadEnv) (s0 s2 : SyncSignature)
    (hb : e.baseline = some s0) (hr : e.remoteSig = some s2)
    (h12 : isSameSignature e.localSig s2 = false)
    (h01 : isSameSignature s0 e.localSig = false)
    (h02 : isSameSignature s0 s2 = false) :
    uploadRun e =
      { effects := [ .copyLocal e.localPath (conflictLocalPath e),
                     .getRemote e.remotePath (conflictRemotePath e),
                     .recordConflict e.localPath (conflictLocalPath e) (conflictRemotePath e) ],
        ok := true, sigUpdate := none, pendingDeleted := false }
      ∧ ((uploadRun e).effects.filter isTransferCall).length = 0
      ∧ (uploadRun e).effects.all (fun eff => !touchesRemote eff e.remotePath) = true
      ∧ conflictLocalPath e ≠ conflictRemotePath e := by
  have hskip : uploadSkips e = false := by simp [uploadSkips, hr, h12]
  have hconf : uploadConflicts e = true := by simp [uploadConflicts, hb, hr, h01, h02]
  have hrun : uploadRun e =
      { effects := [ .copyLocal e.localPath (conflictLocalPath e),
                     .getRemote e.remotePath (conflictRemotePath e),
                     .recordConflict e.localPath (conflictLocalPath e) (conflictRemotePath e) ],
        ok := true, sigUpdate := none, pendingDeleted := false } := by
    simp [uploadRun, hskip, hconf]
  refine ⟨hrun, ?_, ?_, ?_⟩
  · simp [hrun, isTransferCall]
  · simp [hrun, touchesRemote]
  · intro hEq
    have hlen : (conflictLocalPath e).length = (conflictRemotePath e).length := by
      rw [hEq]
    have h16 : (".conflict.LOCAL." : String).length = 16 := by decide
    have h17 : (".conflict.REMOTE." : String).length = 17 := by decide
    simp [conflictLocalPath, conflictRemotePath, String.length_append, h16, h17] at hlen

/-- A concrete upload environment in three-way divergence: baseline
(1,0), local (2,10), remote (3,20), all pairwise unequal. -/
def envDiverged : UploadEnv :=
  { localPath := "/w/c", remotePath := "/r/c", localSig := ⟨2, 10⟩,
    remoteSig := some ⟨3, 20⟩, baseline := some ⟨1, 0⟩, putOk := true,
    renameOk := true, ts := "99" }

/-- Witness for C1 at a concrete input. -/
theorem upload_three_way_conflict_witness :
    uploadRun envDiverged =
      { effects := [ .copyLocal "/w/c" "/w/c.conflict.LOCAL.99",
                     .getRemote "/r/c" "/w/c.conflict.REMOTE.99",
                     .recordConflict "/w/c" "/w/c.conflict.LOCAL.99" "/w/c.conflict.REMOTE.99" ],
        ok := true, sigUpdate := none, pendingDeleted := false } := by
  have h := upload_three_way_conflict envDiverged ⟨1, 0⟩ ⟨3, 20⟩
    rfl rfl (by decide) (by decide) (by decide)
  exact h.1

/-! ## Claim C7 (ledger updated only after atomic completion) -/

/-- Claim C7: for an upload that actually transfers (no skip, no
conflict), the signature ledger entry and the pending-change entry are
written exactly when both the put and the rename succeed; if either fails,
the job body rejects with both ledger entries untouched. -/
theorem upload_ledger_only_after_success (e : UploadEnv)
    (hs : uploadSkips e = false) (hc : uploadConflicts e = false) :
    ((e.putOk = true ∧ e.renameOk = true) →
        (uploadRun e).ok = true ∧ (uploadRun e).sigUpdate = some e.localSig
          ∧ (uploadRun e).pendingDeleted = true)
      ∧ ((e.putOk = false ∨ e.renameOk = false) →
        (uploadRun e).ok = false ∧ (uploadRun e).sigUpdate = none
          ∧ (uploadRun e).pendingDeleted = false) := by
  constructor
  · rintro ⟨hp, hrn⟩
    simp [uploadRun, hs, hc, hp, hrn]
  · intro hfail
    rcases hfail with hp | hrn
    · cases hq : e.putOk with
      | false => simp [uploadRun, hs, hc, hq]
      | true => rw [hq] at hp; cases hp
    · cases hq : e.putOk with
      | false => simp [uploadRun, hs, hc, hq]
      | true => simp [uploadRun, hs, hc, hq, hrn]

/-- A concrete upload environment (remote missing, no baseline) whose
rename fails after a successful put. -/
def envRenameFails : UploadEnv :=
  { localPath := "/w/d", remotePath := "/r/d", localSig := ⟨9, 50⟩,
    remoteSig := none, baseline := none, putOk := true, renameOk := false,
    ts := "3" }

/-- Witness for C7 at concrete inputs: a failing rename leaves both ledger
entries untouched. -/
theorem upload_ledger_only_after_success_witness :
    (uploadRun envRenameFails).ok = false
      ∧ (uploadRun envRenameFails).sigUpdate = none
      ∧ (uploadRun envRenameFails).pendingDeleted = false := by
  exact (upload_ledger_only_after_success envRenameFails
    (by decide) (by decide)).2 (Or.inr rfl)

/-! ## Claim C8 (path filtering scenario) -/

/-- Counterexample to claim C8: with exclusions `["node_modules", "*.log"]`
the relative path `"project/debug.log"` is not excluded — the compiled glob
`^[^/]*\.log$` cannot cross the `/` separator and `"*.log"` does not occur
literally — so `syncFile` builds one job for it, where the claim says no
job is produced. -/
theorem filtering_debug_log_produces_job :
    syncFileJobCount "project/debug.log" ["node_modules", "*.log"] = 1
      ∧ isExcluded "project/debug.log" ["node_modules", "*.log"] = false := by
  constructor <;> decide

/-- Claim C8, amended: with exclusions `["node_modules", "*.log"]` a change
for `"project/node_modules/x.js"` produces no job (literal substring
exclusion), a change for `"project/src/app.ts"` produces exactly one job,
and a change for `"project/debug.log"` also produces exactly one job,
because the `*` glob does not cross path segments and the whole relative
path is matched (`"debug.log"` alone would be excluded). -/
theorem filtering_scenario :
    syncFileJobCount "project/node_modules/x.js" ["node_modules", "*.log"] = 0
      ∧ syncFileJobCount "project/src/app.ts" ["node_modules", "*.log"] = 1
      ∧ syncFileJobCount "project/debug.log" ["node_modules", "*.log"] = 1
      ∧ syncFileJobCount "debug.log" ["node_modules", "*.log"] = 0 := by
  refine ⟨by decide, by decide, by decide, by decide⟩

/-! ## The TransferQueue (TransferQueue.ts) as a transition system

The queue's mutable state becomes `QState`; its public methods and the
asynchronous continuations of `execute` (promise settlement, retry timer)
become events.  `emit` calls are modelled as append-only logs of job ids.
The shared `AbortController` of each job is the set `aborted` of aborted
job ids; a job is in `executing` from dispatch until its `run` promise
settles, while `inflight` mirrors the `inflight` map (which `cancelByKey`
can clear early). -/

/-- State of one `TransferQueue`. -/
structure QState where
  pending : List Job
  inflight : List Job
  executing : List Job
  delayed : List (Job × Nat)
  dedupe : List (String × Job)
  online : Bool
  maxConc : Nat
  startedLog : List Nat
  completedLog : List Nat
  cancelledLog : List Nat
  failedLog : List Nat
  aborted : List Nat
deriving DecidableEq

/-- `new TransferQueue(maxConcurrency)`. -/
def QState.init (conc : Nat) : QState :=
  { pending := [], inflight := [], executing := [], delayed := [],
    dedupe := [], online := true, maxConc := conc, startedLog := [],
    completedLog := [], cancelledLog := [], failedLog := [], aborted := [] }

/-- `Map.prototype.get` on the dedup map. -/
def mapGet (m : List (String × Job)) (k : String) : Option Job :=
  (m.find? fun p => p.1 == k).map fun p => p.2

/-- `Map.prototype.set` on the dedup map: update in place, else append. -/
def mapSet (m : List (String × Job)) (k : String) (v : Job) : List (String × Job) :=
  if m.any (fun p => p.1 == k) then
    m.map fun p => if p.1 == k then (k, v) else p
  else m ++ [(k, v)]

/-- `Map.prototype.delete` on the dedup map. -/
def mapDel (m : List (String × Job)) (k : String) : List (String × Job) :=
  m.filter fun p => !(p.1 == k)

/-- `this.inflight.has(id)`. -/
def inflightHas (s : QState) (i : Nat) : Bool :=
  s.inflight.any fun x => x.id == i

/-- The comparator passed to `pending.sort`: ordering by `priorityRank`. -/
def jobLe (a b : Job) : Prop := priorityRank a.prio ≤ priorityRank b.prio

instance : DecidableRel jobLe := fun a b => Nat.decLe _ _

/-- `this.pending.sort((a, b) => rank[a.priority] - rank[b.priority])`.
V8's sort is stable, and insertion sort is the stable sort. -/
def sortPending (l : List Job) : List Job := l.insertionSort jobLe

/-- The `while` loop of `TransferQueue.schedule`, with fuel bounding the
number of iterations (each iteration shifts one pending job, so the
initial pending length suffices). -/
def scheduleAux : Nat → QState → QState
  | 0, s => s
  | fuel + 1, s =>
    if s.inflight.length < s.maxConc then
      match s.pending with
      | [] => s
      | j :: rest =>
        if j.id ∈ s.aborted then
          scheduleAux fuel { s with pending := rest, dedupe := mapDel s.dedupe j.key }
        else
          scheduleAux fuel
            { s with pending := rest,
                     inflight := s.inflight ++ [j],
                     executing := s.executing ++ [j],
                     startedLog := s.startedLog ++ [j.id] }
    else s

/-- `TransferQueue.schedule`: no dispatch while offline. -/
def schedule (s : QState) : QState :=
  if s.online then scheduleAux s.pending.length s else s

/-- The dedup phase at the top of `TransferQueue.enqueue`: cancel and drop
a same-key job that is registered for dedup and not running. -/
def enqueuePre (s : QState) (j : Job) : QState :=
  match mapGet s.dedupe j.key with
  | some ex =>
      if inflightHas s ex.id then s
      else
        { s with aborted := ex.id :: s.aborted,
                 pending := s.pending.filter fun x => !(x.id == ex.id) }
  | none => s

/-- `TransferQueue.enqueue`: the dedup phase, then push, stable-sort by
priority, re-register the key, schedule. -/
def enqueue (s : QState) (j : Job) : QState :=
  schedule { enqueuePre s j with
              pending := sortPending ((enqueuePre s j).pending ++ [j]),
              dedupe := mapSet (enqueuePre s j).dedupe j.key j }

/-- `TransferQueue.cancelByKey`. -/
def cancelByKey (s : QState) (k : String) : QState :=
  match mapGet s.dedupe k with
  | none => s
  | some ex =>
      { s with aborted := ex.id :: s.aborted,
               pending := s.pending.filter fun x => !(x.id == ex.id),
               inflight := s.inflight.filter fun x => !(x.id == ex.id),
               dedupe := mapDel s.dedupe k }

/-- `TransferQueue.setOnline`. -/
def setOnline (s : QState) (b : Bool) : QState :=
  if b then schedule { s with online := b } else { s with online := b }

/-- `TransferQueue.updateConcurrency`: clamp to at least 1, re-schedule. -/
def updateConcurrency (s : QState) (n : Nat) : QState :=
  schedule { s with maxConc := max 1 n }

/-- The `run` promise of a dispatched job resolves: `execute`'s success
path (emit completed, clear the dedup key) plus its `finally` block
(drop from inflight, schedule). -/
def finishOk (s : QState) (i : Nat) : QState :=
  match s.executing.find? (fun x => x.id == i) with
  | none => s
  | some j =>
      schedule
        { s with executing := s.executing.filter fun x => !(x.id == i),
                 inflight := s.inflight.filter fun x => !(x.id == i),
                 completedLog := s.completedLog ++ [i],
                 dedupe := mapDel s.dedupe j.key }

/-- The `run` promise of a dispatched job rejects: `execute`'s catch
branches (cancelled / retry with backoff / terminal failure) plus the
`finally` block.  On the retry path the job with its incremented retry
count sits in `delayed` until its timer fires. -/
def finishErr (s : QState) (i : Nat) : QState :=
  match s.executing.find? (fun x => x.id == i) with
  | none => s
  | some j =>
      if j.id ∈ s.aborted then
        schedule
          { s with executing := s.executing.filter fun x => !(x.id == i),
                   inflight := s.inflight.filter fun x => !(x.id == i),
                   cancelledLog := s.cancelledLog ++ [i],
                   dedupe := mapDel s.dedupe j.key }
      else if j.retries < j.maxRetries then
        schedule
          { s with executing := s.executing.filter fun x => !(x.id == i),
                   inflight := s.inflight.filter fun x => !(x.id == i),
                   delayed := s.delayed ++
                     [({ j with retries := j.retries + 1 }, retryDelayMs (j.retries + 1))] }
      else
        schedule
          { s with executing := s.executing.filter fun x => !(x.id == i),
                   inflight := s.inflight.filter fun x => !(x.id == i),
                   failedLog := s.failedLog ++ [i],
                   dedupe := mapDel s.dedupe j.key }

/-- The retry `setTimeout` body fires: drop from inflight (already done),
push back into pending, stable-sort, schedule. -/
def timerFire (s : QState) (i : Nat) : QState :=
  match s.delayed.find? (fun p => p.1.id == i) with
  | none => s
  | some (j, _) =>
      schedule
        { s with delayed := s.delayed.filter fun p => !(p.1.id == i),
                 inflight := s.inflight.filter fun x => !(x.id == i),
                 pending := sortPending (s.pending ++ [j]) }

/-- Externally observable events driving one `TransferQueue`. -/
inductive QEvent where
  | enq (j : Job)
  | setOn (b : Bool)
  | updateConc (n : Nat)
  | cancelKey (k : String)
  | finOk (i : Nat)
  | finErr (i : Nat)
  | timer (i : Nat)
deriving DecidableEq

/-- One step of the queue. -/
def applyEvent (s : QState) : QEvent → QState
  | .enq j => enqueue s j
  | .setOn b => setOnline s b
  | .updateConc n => updateConcurrency s n
  | .cancelKey k => cancelByKey s k
  | .finOk i => finishOk s i
  | .finErr i => finishErr s i
  | .timer i => timerFire s i

/-- A whole trace of the queue. -/
def applyEvents (s : QState) (es : List QEvent) : QState :=
  es.foldl applyEvent s

/-- The outstanding (pending or running) jobs carrying dedup key `k`. -/
def outstandingForKey (s : QState) (k : String) : Nat :=
  (s.pending.filter fun j => j.key == k).length
    + (s.inflight.filter fun j => j.key == k).length

/-! ### Structural lemmas about the scheduling loop -/

theorem enqueuePre_inflight (s : QState) (j : Job) :
    (enqueuePre s j).inflight = s.inflight := by
  unfold enqueuePre
  split
  · split
    · rfl
    · rfl
  · rfl

theorem enqueuePre_executing (s : QState) (j : Job) :
    (enqueuePre s j).executing = s.executing := by
  unfold enqueuePre
  split
  · split
    · rfl
    · rfl
  · rfl

theorem enqueuePre_delayed (s : QState) (j : Job) :
    (enqueuePre s j).delayed = s.delayed := by
  unfold enqueuePre
  split
  · split
    · rfl
    · rfl
  · rfl

theorem enqueuePre_maxConc (s : QState) (j : Job) :
    (enqueuePre s j).maxConc = s.maxConc := by
  unfold enqueuePre
  split
  · split
    · rfl
    · rfl
  · rfl

theorem enqueuePre_startedLog (s : QState) (j : Job) :
    (enqueuePre s j).startedLog = s.startedLog := by
  unfold enqueuePre
  split
  · split
    · rfl
    · rfl
  · rfl

theorem enqueuePre_completedLog (s : QState) (j : Job) :
    (enqueuePre s j).completedLog = s.completedLog := by
  unfold enqueuePre
  split
  · split
    · rfl
    · rfl
  · rfl

theorem enqueuePre_aborted_mono (s : QState) (j : Job) {x : Nat}
    (h : x ∈ s.aborted) : x ∈ (enqueuePre s j).aborted := by
  unfold enqueuePre
  split
  · split
    · exact h
    · exact List.mem_cons_of_mem _ h
  · exact h

theorem enqueuePre_pending_sub (s : QState) (j : Job) {x : Job}
    (h : x ∈ (enqueuePre s j).pending) : x ∈ s.pending := by
  unfold enqueuePre at h
  split at h
  · split at h
    · exact h
    · exact List.mem_of_mem_filter h
  · exact h

theorem sa_maxConc (fuel : Nat) (s : QState) :
    (scheduleAux fuel s).maxConc = s.maxConc := by
  induction fuel generalizing s with
  | zero => rfl
  | succ n ih =>
    unfold scheduleAux
    split
    · split
      · rfl
      · split
        · rw [ih]
        · rw [ih]
    · rfl

theorem sa_online (fuel : Nat) (s : QState) :
    (scheduleAux fuel s).online = s.online := by
  induction fuel generalizing s with
  | zero => rfl
  | succ n ih =>
    unfold scheduleAux
    split
    · split
      · rfl
      · split
        · rw [ih]
        · rw [ih]
    · rfl

theorem sa_aborted (fuel : Nat) (s : QState) :
    (scheduleAux fuel s).aborted = s.aborted := by
  induction fuel generalizing s with
  | zero => rfl
  | succ n ih =>
    unfold scheduleAux
    split
    · split
      · rfl
      · split
        · rw [ih]
        · rw [ih]
    · rfl

theorem sa_delayed (fuel : Nat) (s : QState) :
    (scheduleAux fuel s).delayed = s.delayed := by
  induction fuel generalizing s with
  | zero => rfl
  | succ n ih =>
    unfold scheduleAux
    split
    · split
      · rfl
      · split
        · rw [ih]
        · rw [ih]
    · rfl

theorem sa_completed (fuel : Nat) (s : QState) :
    (scheduleAux fuel s).completedLog = s.completedLog := by
  induction fuel generalizing s with
  | zero => rfl
  | succ n ih =>
    unfold scheduleAux
    split
    · split
      · rfl
      · split
        · rw [ih]
        · rw [ih]
    · rfl

/-- The scheduling loop never lets the running count exceed the bound:
a job is dispatched only while `inflight.length < maxConc`. -/
theorem sa_bound (fuel : Nat) (s : QState)
    (h : s.inflight.length ≤ s.maxConc) :
    (scheduleAux fuel s).inflight.length ≤ (scheduleAux fuel s).maxConc := by
  induction fuel generalizing s with
  | zero => exact h
  | succ n ih =>
    unfold scheduleAux
    split
    · split
      · exact h
      · split
        · exact ih _ h
        · refine ih _ ?_
          simp only [List.length_append, List.length_cons, List.length_nil]
          omega
    · exact h

theorem sa_pending_sub (fuel : Nat) (s : QState) {x : Job}
    (h : x ∈ (scheduleAux fuel s).pending) : x ∈ s.pending := by
  induction fuel generalizing s with
  | zero => exact h
  | succ n ih =>
    rw [scheduleAux] at h
    split at h
    · split at h
      next heq => exact h
      next j rest heq =>
        split at h
        · have := ih _ h
          simp only at this
          rw [heq]
          exact List.mem_cons_of_mem _ this
        · have := ih _ h
          simp only at this
          rw [heq]
          exact List.mem_cons_of_mem _ this
    · exact h

theorem sa_inflight_mono (fuel : Nat) (s : QState) {x : Job}
    (h : x ∈ s.inflight) : x ∈ (scheduleAux fuel s).inflight := by
  induction fuel generalizing s with
  | zero => exact h
  | succ n ih =>
    rw [scheduleAux]
    split
    · split
      · exact h
      · split
        · exact ih _ h
        · refine ih _ ?_
          simp only [List.mem_append]
          exact Or.inl h
    · exact h

theorem sa_inflight_src (fuel : Nat) (s : QState) {x : Job}
    (h : x ∈ (scheduleAux fuel s).inflight) : x ∈ s.inflight ∨ x ∈ s.pending := by
  induction fuel generalizing s with
  | zero => exact Or.inl h
  | succ n ih =>
    rw [scheduleAux] at h
    split at h
    · split at h
      next heq => exact Or.inl h
      next j rest heq =>
        split at h
        · rcases ih _ h with h1 | h1
          · exact Or.inl h1
          · exact Or.inr (heq ▸ List.mem_cons_of_mem _ h1)
        · rcases ih _ h with h1 | h1
          · rcases List.mem_append.mp h1 with h2 | h2
            · exact Or.inl h2
            · simp only [List.mem_singleton] at h2
              exact Or.inr (heq ▸ (h2 ▸ List.mem_cons_self _ _))
          · exact Or.inr (heq ▸ List.mem_cons_of_mem _ h1)
    · exact Or.inl h

theorem sa_started_mono (fuel : Nat) (s : QState) {x : Nat}
    (h : x ∈ s.startedLog) : x ∈ (scheduleAux fuel s).startedLog := by
  induction fuel generalizing s with
  | zero => exact h
  | succ n ih =>
    rw [scheduleAux]
    split
    · split
      · exact h
      · split
        · exact ih _ h
        · refine ih _ ?_
          simp only [List.mem_append]
          exact Or.inl h
    · exact h

/-- Every id the scheduling loop adds to the start log is the id of a
pending, not-aborted job. -/
theorem sa_started_src (fuel : Nat) (s : QState) {x : Nat}
    (h : x ∈ (scheduleAux fuel s).startedLog) :
    x ∈ s.startedLog ∨ ∃ j ∈ s.pending, j.id = x ∧ j.id ∉ s.aborted := by
  induction fuel generalizing s with
  | zero => exact Or.inl h
  | succ n ih =>
    rw [scheduleAux] at h
    split at h
    · split at h
      next heq => exact Or.inl h
      next j rest heq =>
        split at h
        next hab =>
          rcases ih _ h with h1 | h1
          · exact Or.inl h1
          · obtain ⟨j', hj', hid, hnab⟩ := h1
            exact Or.inr ⟨j', heq ▸ List.mem_cons_of_mem _ hj', hid, hnab⟩
        next hab =>
          rcases ih _ h with h1 | h1
          · rcases List.mem_append.mp h1 with h2 | h2
            · exact Or.inl h2
            · simp only [List.mem_singleton] at h2
              exact Or.inr ⟨j, heq ▸ List.mem_cons_self _ _, h2.symm, hab⟩
          · obtain ⟨j', hj', hid, hnab⟩ := h1
            exact Or.inr ⟨j', heq ▸ List.mem_cons_of_mem _ hj', hid, hnab⟩
    · exact Or.inl h

/-- Every job the scheduling loop adds to `executing` is a pending,
not-aborted job. -/
theorem sa_executing_src (fuel : Nat) (s : QState) {x : Job}
    (h : x ∈ (scheduleAux fuel s).executing) :
    x ∈ s.executing ∨ (x ∈ s.pending ∧ x.id ∉ s.aborted) := by
  induction fuel generalizing s with
  | zero => exact Or.inl h
  | succ n ih =>
    rw [scheduleAux] at h
    split at h
    · split at h
      next heq => exact Or.inl h
      next j rest heq =>
        split at h
        next hab =>
          rcases ih _ h with h1 | h1
          · exact Or.inl h1
          · exact Or.inr ⟨heq ▸ List.mem_cons_of_mem _ h1.1, h1.2⟩
        next hab =>
          rcases ih _ h with h1 | h1
          · rcases List.mem_append.mp h1 with h2 | h2
            · exact Or.inl h2
            · simp only [List.mem_singleton] at h2
              exact Or.inr ⟨heq ▸ (h2 ▸ List.mem_cons_self _ _), h2 ▸ hab⟩
          · exact Or.inr ⟨heq ▸ List.mem_cons_of_mem _ h1.1, h1.2⟩
    · exact Or.inl h

/-- A pending, not-aborted job survives the scheduling loop either still
pending or dispatched into `inflight`. -/
theorem sa_pending_keep (fuel : Nat) (s : QState) {x : Job}
    (hx : x ∈ s.pending) (hna : x.id ∉ s.aborted) :
    x ∈ (scheduleAux fuel s).pending ∨ x ∈ (scheduleAux fuel s).inflight := by
  induction fuel generalizing s with
  | zero => exact Or.inl hx
  | succ n ih =>
    rw [scheduleAux]
    split
    · split
      next heq => exact Or.inl hx
      next j rest heq =>
        rw [heq] at hx
        split
        next hab =>
          rcases List.mem_cons.mp hx with h1 | h1
          · exact absurd (h1 ▸ hab) hna
          · exact ih _ h1 hna
        next hab =>
          rcases List.mem_cons.mp hx with h1 | h1
          · refine Or.inr (sa_inflight_mono _ _ ?_)
            simp only [List.mem_append, List.mem_singleton]
            exact Or.inr h1
          · exact ih _ h1 hna
    · exact Or.inl hx

/-! ### The concurrency bound -/

/-- The running count respects the configured bound. -/
def Bound (s : QState) : Prop := s.inflight.length ≤ s.maxConc

theorem schedule_bound {s : QState} (h : Bound s) : Bound (schedule s) := by
  unfold schedule
  split
  · exact sa_bound _ _ h
  · exact h

/-- Every queue operation except a concurrency decrease below the current
running count preserves the bound; `updateConcurrency` preserves it
exactly when the new (clamped) bound still admits the running jobs. -/
theorem bound_applyEvent (s : QState) (e : QEvent) (hb : Bound s)
    (hadm : ∀ n, e = QEvent.updateConc n → s.inflight.length ≤ max 1 n) :
    Bound (applyEvent s e) := by
  cases e with
  | enq j =>
    refine schedule_bound ?_
    unfold Bound
    simp only [enqueuePre_inflight, enqueuePre_maxConc]
    exact hb
  | setOn b =>
    simp only [applyEvent, setOnline]
    split
    · exact schedule_bound hb
    · exact hb
  | updateConc n =>
    refine schedule_bound ?_
    exact hadm n rfl
  | cancelKey k =>
    simp only [applyEvent, cancelByKey]
    cases mapGet s.dedupe k with
    | none => exact hb
    | some ex =>
      simp only [Bound]
      exact le_trans (List.length_filter_le _ _) hb
  | finOk i =>
    simp only [applyEvent, finishOk]
    cases s.executing.find? (fun x => x.id == i) with
    | none => exact hb
    | some j =>
      refine schedule_bound ?_
      exact le_trans (List.length_filter_le _ _) hb
  | finErr i =>
    simp only [applyEvent, finishErr]
    cases s.executing.find? (fun x => x.id == i) with
    | none => exact hb
    | some j =>
      simp only
      split
      · exact schedule_bound (le_trans (List.length_filter_le _ _) hb)
      · split
        · exact schedule_bound (le_trans (List.length_filter_le _ _) hb)
        · exact schedule_bound (le_trans (List.length_filter_le _ _) hb)
  | timer i =>
    simp only [applyEvent, timerFire]
    cases s.delayed.find? (fun p => p.1.id == i) with
    | none => exact hb
    | some p =>
      exact schedule_bound (le_trans (List.length_filter_le _ _) hb)

/-- One event is admissible for the concurrency bound when, if it is an
`updateConcurrency` call, the new (clamped) bound still admits the jobs
running at that moment. -/
def admissibleStep (s : QState) : QEvent → Bool
  | .updateConc n => decide (s.inflight.length ≤ max 1 n)
  | _ => true

/-- Whether every `updateConcurrency` call in the trace is admissible. -/
def updatesAdmissible : QState → List QEvent → Bool
  | _, [] => true
  | s, e :: rest => admissibleStep s e && updatesAdmissible (applyEvent s e) rest

theorem bound_trace (es : List QEvent) (s : QState) (hb : Bound s)
    (hadm : updatesAdmissible s es = true) : Bound (applyEvents s es) := by
  induction es generalizing s with
  | nil => exact hb
  | cons e rest ih =>
    rw [updatesAdmissible, Bool.and_eq_true] at hadm
    refine ih _ (bound_applyEvent s e hb ?_) hadm.2
    intro n hn
    subst hn
    have h1 := hadm.1
    rw [admissibleStep] at h1
    simpa using h1

/-! ### Aborted-before-start jobs never start, never complete -/

/-- A job id that has been aborted before ever being dispatched: it is
never in the start log, never among the executing jobs, never in the
completed log. -/
def NonStart (x : Nat) (s : QState) : Prop :=
  x ∈ s.aborted ∧ x ∉ s.startedLog ∧ x ∉ s.completedLog
    ∧ ∀ j ∈ s.executing, j.id ≠ x

theorem sa_nonStart (fuel : Nat) (s : QState) {x : Nat}
    (h : NonStart x s) : NonStart x (scheduleAux fuel s) := by
  obtain ⟨hab, hns, hnc, hne⟩ := h
  refine ⟨(sa_aborted fuel s) ▸ hab, ?_, (sa_completed fuel s) ▸ hnc, ?_⟩
  · intro hmem
    rcases sa_started_src fuel s hmem with h1 | h1
    · exact hns h1
    · obtain ⟨j, _, hid, hnab⟩ := h1
      exact hnab (hid ▸ hab)
  · intro j hj
    rcases sa_executing_src fuel s hj with h1 | h1
    · exact hne j h1
    · intro hid
      exact h1.2 (hid ▸ hab)

theorem schedule_nonStart {s : QState} {x : Nat} (h : NonStart x s) :
    NonStart x (schedule s) := by
  unfold schedule
  split
  · exact sa_nonStart _ _ h
  · exact h

theorem nonStart_applyEvent (s : QState) (e : QEvent) {x : Nat}
    (h : NonStart x s) : NonStart x (applyEvent s e) := by
  obtain ⟨hab, hns, hnc, hne⟩ := h
  cases e with
  | enq j =>
    refine schedule_nonStart ?_
    refine ⟨enqueuePre_aborted_mono s j hab, ?_, ?_, ?_⟩
    · rw [enqueuePre_startedLog]
      exact hns
    · rw [enqueuePre_completedLog]
      exact hnc
    · intro j' hj'
      rw [enqueuePre_executing] at hj'
      exact hne j' hj'
  | setOn b =>
    simp only [applyEvent, setOnline]
    split
    · exact schedule_nonStart ⟨hab, hns, hnc, hne⟩
    · exact ⟨hab, hns, hnc, hne⟩
  | updateConc n =>
    exact schedule_nonStart ⟨hab, hns, hnc, hne⟩
  | cancelKey k =>
    simp only [applyEvent, cancelByKey]
    cases mapGet s.dedupe k with
    | none => exact ⟨hab, hns, hnc, hne⟩
    | some ex =>
      exact ⟨List.mem_cons_of_mem _ hab, hns, hnc, hne⟩
  | finOk i =>
    simp only [applyEvent, finishOk]
    cases hf : s.executing.find? (fun y => y.id == i) with
    | none => exact ⟨hab, hns, hnc, hne⟩
    | some j =>
      have hj : j ∈ s.executing ∧ j.id = i := by
        have h1 := List.find?_some hf
        have h2 := List.mem_of_find?_eq_some hf
        simp only [beq_iff_eq] at h1
        exact ⟨h2, h1⟩
      refine schedule_nonStart ⟨hab, hns, ?_, ?_⟩
      · intro hmem
        rcases List.mem_append.mp hmem with h1 | h1
        · exact hnc h1
        · simp only [List.mem_singleton] at h1
          exact hne j hj.1 (hj.2.trans h1.symm)
      · intro j' hj'
        exact hne j' (List.mem_of_mem_filter hj')
  | finErr i =>
    simp only [applyEvent, finishErr]
    cases hf : s.executing.find? (fun y => y.id == i) with
    | none => exact ⟨hab, hns, hnc, hne⟩
    | some j =>
      simp only
      have hexec : ∀ j' ∈ s.executing.filter (fun y => !(y.id == i)), j'.id ≠ x :=
        fun j' hj' => hne j' (List.mem_of_mem_filter hj')
      split
      · exact schedule_nonStart ⟨hab, hns, hnc, hexec⟩
      · split
        · exact schedule_nonStart ⟨hab, hns, hnc, hexec⟩
        · exact schedule_nonStart ⟨hab, hns, hnc, hexec⟩
  | timer i =>
    simp only [applyEvent, timerFire]
    cases s.delayed.find? (fun p => p.1.id == i) with
    | none => exact ⟨hab, hns, hnc, hne⟩
    | some p =>
      exact schedule_nonStart ⟨hab, hns, hnc, hne⟩

theorem nonStart_trace (es : List QEvent) (s : QState) {x : Nat}
    (h : NonStart x s) : NonStart x (applyEvents s es) := by
  induction es generalizing s with
  | nil => exact h
  | cons e rest ih => exact ih _ (nonStart_applyEvent s e h)

/-! ### Reachability: only dispatched jobs run, complete, or wait to retry -/

/-- Ids found in `inflight`, `executing`, `delayed` or `completedLog` were
dispatched at some point (they occur in the start log). -/
def Closed (s : QState) : Prop :=
  (∀ j ∈ s.inflight, j.id ∈ s.startedLog)
    ∧ (∀ j ∈ s.executing, j.id ∈ s.startedLog)
    ∧ (∀ p ∈ s.delayed, p.1.id ∈ s.startedLog)
    ∧ (∀ c ∈ s.completedLog, c ∈ s.startedLog)

instance (s : QState) : Decidable (Closed s) := by
  unfold Closed
  infer_instance

theorem sa_closed (fuel : Nat) (s : QState) (h : Closed s) :
    Closed (scheduleAux fuel s) := by
  induction fuel generalizing s with
  | zero => exact h
  | succ n ih =>
    obtain ⟨hi, hx, hd, hc⟩ := h
    rw [scheduleAux]
    split
    · split
      · exact ⟨hi, hx, hd, hc⟩
      next j rest heq =>
        split
        · exact ih _ ⟨hi, hx, hd, hc⟩
        · refine ih _ ⟨?_, ?_, ?_, ?_⟩
          · intro j' hj'
            simp only [List.mem_append, List.mem_singleton] at hj' ⊢
            rcases hj' with h1 | h1
            · exact Or.inl (hi j' h1)
            · exact Or.inr (by rw [h1])
          · intro j' hj'
            simp only [List.mem_append, List.mem_singleton] at hj' ⊢
            rcases hj' with h1 | h1
            · exact Or.inl (hx j' h1)
            · exact Or.inr (by rw [h1])
          · intro p hp
            simp only [List.mem_append, List.mem_singleton]
            exact Or.inl (hd p hp)
          · intro c hcm
            simp only [List.mem_append, List.mem_singleton]
            exact Or.inl (hc c hcm)
    · exact ⟨hi, hx, hd, hc⟩

theorem schedule_closed {s : QState} (h : Closed s) : Closed (schedule s) := by
  unfold schedule
  split
  · exact sa_closed _ _ h
  · exact h

theorem closed_applyEvent (s : QState) (e : QEvent) (h : Closed s) :
    Closed (applyEvent s e) := by
  obtain ⟨hi, hx, hd, hc⟩ := h
  cases e with
  | enq j =>
    refine schedule_closed ?_
    refine ⟨?_, ?_, ?_, ?_⟩
    · intro j' hj'
      rw [enqueuePre_inflight] at hj'
      rw [enqueuePre_startedLog]
      exact hi j' hj'
    · intro j' hj'
      rw [enqueuePre_executing] at hj'
      rw [enqueuePre_startedLog]
      exact hx j' hj'
    · intro p hp
      rw [enqueuePre_delayed] at hp
      rw [enqueuePre_startedLog]
      exact hd p hp
    · intro c hcm
      rw [enqueuePre_completedLog] at hcm
      rw [enqueuePre_startedLog]
      exact hc c hcm
  | setOn b =>
    simp only [applyEvent, setOnline]
    split
    · exact schedule_closed ⟨hi, hx, hd, hc⟩
    · exact ⟨hi, hx, hd, hc⟩
  | updateConc n =>
    exact schedule_closed ⟨hi, hx, hd, hc⟩
  | cancelKey k =>
    simp only [applyEvent, cancelByKey]
    cases mapGet s.dedupe k with
    | none => exact ⟨hi, hx, hd, hc⟩
    | some ex =>
      refine ⟨?_, hx, hd, hc⟩
      intro j' hj'
      exact hi j' (List.mem_of_mem_filter hj')
  | finOk i =>
    simp only [applyEvent, finishOk]
    cases hf : s.executing.find? (fun y => y.id == i) with
    | none => exact ⟨hi, hx, hd, hc⟩
    | some j =>
      have hj : j ∈ s.executing ∧ j.id = i := by
        have h1 := List.find?_some hf
        have h2 := List.mem_of_find?_eq_some hf
        simp only [beq_iff_eq] at h1
        exact ⟨h2, h1⟩
      refine schedule_closed ⟨?_, ?_, hd, ?_⟩
      · intro j' hj'
        exact hi j' (List.mem_of_mem_filter hj')
      · intro j' hj'
        exact hx j' (List.mem_of_mem_filter hj')
      · intro c hcm
        rcases List.mem_append.mp hcm with h1 | h1
        · exact hc c h1
        · simp only [List.mem_singleton] at h1
          have hmem := hx j hj.1
          rw [hj.2] at hmem
          rw [h1]
          exact hmem
  | finErr i =>
    simp only [applyEvent, finishErr]
    cases hf : s.executing.find? (fun y => y.id == i) with
    | none => exact ⟨hi, hx, hd, hc⟩
    | some j =>
      have hj : j ∈ s.executing ∧ j.id = i := by
        have h1 := List.find?_some hf
        have h2 := List.mem_of_find?_eq_some hf
        simp only [beq_iff_eq] at h1
        exact ⟨h2, h1⟩
      have hifilt : ∀ j' ∈ s.inflight.filter (fun y => !(y.id == i)), j'.id ∈ s.startedLog :=
        fun j' hj' => hi j' (List.mem_of_mem_filter hj')
      have hxfilt : ∀ j' ∈ s.executing.filter (fun y => !(y.id == i)), j'.id ∈ s.startedLog :=
        fun j' hj' => hx j' (List.mem_of_mem_filter hj')
      simp only
      split
      · exact schedule_closed ⟨hifilt, hxfilt, hd, hc⟩
      · split
        · refine schedule_closed ⟨hifilt, hxfilt, ?_, hc⟩
          intro p hp
          rcases List.mem_append.mp hp with h1 | h1
          · exact hd p h1
          · simp only [List.mem_singleton] at h1
            rw [h1]
            exact hx j hj.1
        · exact schedule_closed ⟨hifilt, hxfilt, hd, hc⟩
  | timer i =>
    simp only [applyEvent, timerFire]
    cases s.delayed.find? (fun p => p.1.id == i) with
    | none => exact ⟨hi, hx, hd, hc⟩
    | some p =>
      refine schedule_closed ⟨?_, hx, ?_, hc⟩
      · intro j' hj'
        exact hi j' (List.mem_of_mem_filter hj')
      · intro p' hp'
        exact hd p' (List.mem_of_mem_filter hp')

theorem closed_trace (es : List QEvent) (s : QState) (h : Closed s) :
    Closed (applyEvents s es) := by
  induction es generalizing s with
  | nil => exact h
  | cons e rest ih => exact ih _ (closed_applyEvent s e h)

theorem closed_init (conc : Nat) : Closed (QState.init conc) := by
  refine ⟨?_, ?_, ?_, ?_⟩ <;> intro a ha <;> simp [QState.init] at ha

theorem schedule_pending_sub {s : QState} {x : Job}
    (h : x ∈ (schedule s).pending) : x ∈ s.pending := by
  unfold schedule at h
  split at h
  · exact sa_pending_sub _ _ h
  · exact h

theorem schedule_inflight_mono {s : QState} {x : Job}
    (h : x ∈ s.inflight) : x ∈ (schedule s).inflight := by
  unfold schedule
  split
  · exact sa_inflight_mono _ _ h
  · exact h

theorem schedule_pending_keep {s : QState} {x : Job}
    (hx : x ∈ s.pending) (hna : x.id ∉ s.aborted) :
    x ∈ (schedule s).pending ∨ x ∈ (schedule s).inflight := by
  unfold schedule
  split
  · exact sa_pending_keep _ _ hx hna
  · exact Or.inl hx

theorem two_mem_le_length {α : Type} {x y : α} {l : List α}
    (hx : x ∈ l) (hy : y ∈ l) (hne : x ≠ y) : 2 ≤ l.length := by
  induction l with
  | nil => cases hx
  | cons a t ih =>
    rcases List.mem_cons.mp hx with h1 | h1
    · rcases List.mem_cons.mp hy with h2 | h2
      · exact absurd (h1.trans h2.symm) hne
      · have := List.length_pos_of_mem h2
        simp only [List.length_cons]
        omega
    · rcases List.mem_cons.mp hy with h2 | h2
      · have := List.length_pos_of_mem h1
        simp only [List.length_cons]
        omega
      · have := ih h1 h2
        simp only [List.length_cons]
        omega

/-! ## Claim C3 (running count vs concurrency bound) -/

/-- First job for the queue scenarios. -/
def jobA1 : Job := ⟨1, "a", .normal, 0, 0⟩

/-- Second job for the queue scenarios. -/
def jobB2 : Job := ⟨2, "b", .normal, 0, 0⟩

/-- Counterexample to claim C3: with bound 2 and two running jobs,
`updateConcurrency(1)` lowers the bound to 1 but both jobs keep running —
the running count exceeds the configured bound right after the call, so
the invariant does not hold at every reachable instant. -/
theorem concurrency_bound_violated_after_lowering :
    (applyEvents (QState.init 2) [.enq jobA1, .enq jobB2, .updateConc 1]).inflight.length = 2
      ∧ (applyEvents (QState.init 2) [.enq jobA1, .enq jobB2, .updateConc 1]).maxConc = 1
      ∧ ¬ ((applyEvents (QState.init 2) [.enq jobA1, .enq jobB2, .updateConc 1]).inflight.length
            ≤ (applyEvents (QState.init 2) [.enq jobA1, .enq jobB2, .updateConc 1]).maxConc) := by
  refine ⟨by decide, by decide, by decide⟩

/-- Claim C3, amended: the scheduler dispatches a job only while the
running count is below the bound, so at every reachable instant the
running count is at most the configured bound — provided every runtime
`updateConcurrency(n)` call happens while at most `max 1 n` jobs are
running.  Lowering the bound below the current running count leaves the
excess jobs running (no preemption) until they finish. -/
theorem concurrency_bound_invariant (conc : Nat) (es : List QEvent)
    (hadm : updatesAdmissible (QState.init conc) es = true) :
    (applyEvents (QState.init conc) es).inflight.length
      ≤ (applyEvents (QState.init conc) es).maxConc := by
  refine bound_trace es _ ?_ hadm
  show (QState.init conc).inflight.length ≤ (QState.init conc).maxConc
  simp [QState.init]

/-- Witness for the amended C3: five enqueues at bound 2 and a later
admissible bound change. -/
theorem concurrency_bound_invariant_witness :
    updatesAdmissible (QState.init 2)
        [.enq jobA1, .enq jobB2, .enq ⟨3, "c", .normal, 0, 0⟩, .updateConc 3] = true
      ∧ (applyEvents (QState.init 2)
            [.enq jobA1, .enq jobB2, .enq ⟨3, "c", .normal, 0, 0⟩, .updateConc 3]).inflight.length
          ≤ (applyEvents (QState.init 2)
              [.enq jobA1, .enq jobB2, .enq ⟨3, "c", .normal, 0, 0⟩, .updateConc 3]).maxConc :=
  ⟨by decide, concurrency_bound_invariant 2 _ (by decide)⟩

/-! ## Claim C4 (one outstanding job per dedup key) -/

/-- First job with dedup key "k". -/
def jobK1 : Job := ⟨1, "k", .high, 0, 0⟩

/-- Second job with dedup key "k". -/
def jobK2 : Job := ⟨2, "k", .high, 0, 0⟩

/-- Third job with dedup key "k". -/
def jobK3 : Job := ⟨3, "k", .high, 0, 0⟩

/-- Counterexample to claim C4: with bound 1, enqueue a job with key "k"
(it starts running), then enqueue a second job with the same key: the
running job is not preempted and the new job is added, so two outstanding
jobs with dedup key "k" exist — and the first was running at the second's
enqueue, exactly the situation the claim rules out. -/
theorem dedup_two_outstanding_same_key :
    inflightHas (applyEvents (QState.init 1) [.enq jobK1]) jobK1.id = true
      ∧ outstandingForKey (applyEvents (QState.init 1) [.enq jobK1, .enq jobK2]) "k" = 2 := by
  refine ⟨by decide, by decide⟩

/-- The dedup map is well formed: one entry per key, each entry holding a
job whose dedup key is that key. -/
def DedupeWF (m : List (String × Job)) : Prop :=
  (m.map Prod.fst).Nodup ∧ ∀ p ∈ m, p.2.key = p.1

theorem mapDel_wf {m : List (String × Job)} {k : String} (h : DedupeWF m) :
    DedupeWF (mapDel m k) := by
  constructor
  · exact ((List.filter_sublist m).map Prod.fst).nodup h.1
  · intro p hp
    exact h.2 p (List.mem_of_mem_filter hp)

theorem mapSet_wf {m : List (String × Job)} {k : String} {v : Job}
    (h : DedupeWF m) (hv : v.key = k) : DedupeWF (mapSet m k v) := by
  unfold mapSet
  split
  next hmem =>
    constructor
    · rw [List.map_map]
      have hcong : ∀ p ∈ m, (Prod.fst ∘ fun p => if p.1 == k then (k, v) else p) p = p.1 := by
        intro p hp
        by_cases hpk : (p.1 == k) = true
        · simp only [Function.comp_apply, hpk, if_true]
          exact (beq_iff_eq.mp hpk).symm
        · simp only [Function.comp_apply, hpk]
          simp
      rw [List.map_congr_left hcong]
      exact h.1
    · intro p hp
      rw [List.mem_map] at hp
      obtain ⟨q, hq, rfl⟩ := hp
      by_cases hqk : (q.1 == k) = true
      · simp only [hqk, if_true]
        exact hv
      · simp only [hqk]
        simp only [Bool.false_eq_true, if_false]
        exact h.2 q hq
  next hmem =>
    constructor
    · rw [List.map_append]
      simp only [List.map_cons, List.map_nil]
      rw [List.nodup_append]
      refine ⟨h.1, List.nodup_singleton _, ?_⟩
      intro a ha hb
      simp only [List.mem_singleton] at hb
      subst hb
      rw [List.mem_map] at ha
      obtain ⟨q, hq, hq1⟩ := ha
      rw [List.any_eq_true] at hmem
      exact hmem ⟨q, hq, by simp [hq1]⟩
    · intro p hp
      rcases List.mem_append.mp hp with h1 | h1
      · exact h.2 p h1
      · simp only [List.mem_singleton] at h1
        subst h1
        exact hv

theorem schedule_aborted (s : QState) : (schedule s).aborted = s.aborted := by
  unfold schedule
  split
  · exact sa_aborted _ _
  · rfl

theorem enqueuePre_dedupe (s : QState) (j : Job) :
    (enqueuePre s j).dedupe = s.dedupe := by
  unfold enqueuePre
  split
  · split
    · rfl
    · rfl
  · rfl

theorem sa_dedupeWF (fuel : Nat) (s : QState) (h : DedupeWF s.dedupe) :
    DedupeWF (scheduleAux fuel s).dedupe := by
  induction fuel generalizing s with
  | zero => exact h
  | succ n ih =>
    rw [scheduleAux]
    split
    · split
      · exact h
      · split
        · exact ih _ (mapDel_wf h)
        · exact ih _ h
    · exact h

theorem schedule_dedupeWF {s : QState} (h : DedupeWF s.dedupe) :
    DedupeWF (schedule s).dedupe := by
  unfold schedule
  split
  · exact sa_dedupeWF _ _ h
  · exact h

theorem dedupeWF_applyEvent (s : QState) (e : QEvent) (h : DedupeWF s.dedupe) :
    DedupeWF (applyEvent s e).dedupe := by
  cases e with
  | enq j =>
    refine schedule_dedupeWF ?_
    show DedupeWF (mapSet (enqueuePre s j).dedupe j.key j)
    rw [enqueuePre_dedupe]
    exact mapSet_wf h rfl
  | setOn b =>
    simp only [applyEvent, setOnline]
    split
    · exact schedule_dedupeWF h
    · exact h
  | updateConc n =>
    exact schedule_dedupeWF h
  | cancelKey k =>
    simp only [applyEvent, cancelByKey]
    cases mapGet s.dedupe k with
    | none => exact h
    | some ex => exact mapDel_wf h
  | finOk i =>
    simp only [applyEvent, finishOk]
    cases s.executing.find? (fun y => y.id == i) with
    | none => exact h
    | some j => exact schedule_dedupeWF (mapDel_wf h)
  | finErr i =>
    simp only [applyEvent, finishErr]
    cases s.executing.find? (fun y => y.id == i) with
    | none => exact h
    | some j =>
      simp only
      split
      · exact schedule_dedupeWF (mapDel_wf h)
      · split
        · exact schedule_dedupeWF h
        · exact schedule_dedupeWF (mapDel_wf h)
  | timer i =>
    simp only [applyEvent, timerFire]
    cases s.delayed.find? (fun p => p.1.id == i) with
    | none => exact h
    | some p => exact schedule_dedupeWF h

theorem dedupeWF_trace (conc : Nat) (es : List QEvent) :
    DedupeWF (applyEvents (QState.init conc) es).dedupe := by
  have hstep : ∀ (es' : List QEvent) (s : QState), DedupeWF s.dedupe →
      DedupeWF (applyEvents s es').dedupe := by
    intro es'
    induction es' with
    | nil => exact fun s h => h
    | cons e rest ih => exact fun s h => ih _ (dedupeWF_applyEvent s e h)
  refine hstep es _ ?_
  constructor
  · simp [QState.init]
  · intro p hp
    simp [QState.init] at hp

/-- Claim C4, amended: the dedup map registers at most one job per key
(and every reachable dedup map is well formed); enqueue cancels and
removes the registered same-key job only when it is not running, while a
currently running same-key job is never preempted — the newly enqueued job
is added alongside it, so the queue can hold two outstanding jobs with the
same dedup key. -/
theorem dedup_key_registration (s : QState) (j ex : Job) :
    (mapGet s.dedupe j.key = some ex → inflightHas s ex.id = false → j.id ≠ ex.id →
        ex.id ∈ (enqueue s j).aborted ∧ ∀ x ∈ (enqueue s j).pending, x.id ≠ ex.id)
      ∧ (mapGet s.dedupe j.key = some ex → ex ∈ s.inflight → ex.key = j.key →
          j.id ∉ s.aborted → ex.id ≠ j.id →
          2 ≤ outstandingForKey (enqueue s j) j.key)
      ∧ (∀ (conc : Nat) (es : List QEvent),
          DedupeWF (applyEvents (QState.init conc) es).dedupe) := by
  refine ⟨?_, ?_, dedupeWF_trace⟩
  · intro hkey hnifl hid
    have hpre : enqueuePre s j =
        { s with aborted := ex.id :: s.aborted,
                 pending := s.pending.filter fun x => !(x.id == ex.id) } := by
      unfold enqueuePre
      rw [hkey]
      simp only [hnifl]
      simp
    constructor
    · show ex.id ∈ (schedule _).aborted
      rw [schedule_aborted]
      show ex.id ∈ (enqueuePre s j).aborted
      rw [hpre]
      exact List.mem_cons_self _ _
    · intro x hx
      have hx1 := schedule_pending_sub hx
      have hx2 : x ∈ sortPending ((enqueuePre s j).pending ++ [j]) := hx1
      rw [sortPending, List.mem_insertionSort] at hx2
      rcases List.mem_append.mp hx2 with h1 | h1
      · rw [hpre] at h1
        have := List.of_mem_filter h1
        simpa using this
      · simp only [List.mem_singleton] at h1
        subst h1
        exact hid
  · intro hkey hmem hexk hjna hne
    have hifl : inflightHas s ex.id = true := by
      rw [inflightHas, List.any_eq_true]
      exact ⟨ex, hmem, by simp⟩
    have hpre : enqueuePre s j = s := by
      unfold enqueuePre
      rw [hkey]
      simp only [hifl]
      simp
    have hmidp : j ∈ sortPending ((enqueuePre s j).pending ++ [j]) := by
      rw [sortPending, List.mem_insertionSort]
      exact List.mem_append.mpr (Or.inr (List.mem_singleton.mpr rfl))
    have hkeep := schedule_pending_keep (s :=
      { enqueuePre s j with
          pending := sortPending ((enqueuePre s j).pending ++ [j]),
          dedupe := mapSet (enqueuePre s j).dedupe j.key j }) (x := j) hmidp
      (by simpa [hpre] using hjna)
    have hexin : ex ∈ (enqueue s j).inflight := by
      refine schedule_inflight_mono ?_
      show ex ∈ (enqueuePre s j).inflight
      rw [hpre]
      exact hmem
    rw [outstandingForKey]
    rcases hkeep with hjp | hji
    · have h1 : j ∈ (enqueue s j).pending.filter fun x => x.key == j.key := by
        rw [List.mem_filter]
        exact ⟨hjp, by simp⟩
      have h2 : ex ∈ (enqueue s j).inflight.filter fun x => x.key == j.key := by
        rw [List.mem_filter]
        exact ⟨hexin, by simp [hexk]⟩
      have := List.length_pos_of_mem h1
      have := List.length_pos_of_mem h2
      omega
    · have h1 : j ∈ (enqueue s j).inflight.filter fun x => x.key == j.key := by
        rw [List.mem_filter]
        exact ⟨hji, by simp⟩
      have h2 : ex ∈ (enqueue s j).inflight.filter fun x => x.key == j.key := by
        rw [List.mem_filter]
        exact ⟨hexin, by simp [hexk]⟩
      have hle := two_mem_le_length h2 h1 (fun hcontra => hne (congrArg Job.id hcontra))
      omega

/-- Witness for the amended C4 at concrete inputs: a pending registered
job gets cancelled; a running registered job coexists with the newcomer. -/
theorem dedup_key_registration_witness :
    (jobK1.id ∈ (enqueue (applyEvents (QState.init 1) [.setOn false, .enq jobK1]) jobK2).aborted
        ∧ ∀ x ∈ (enqueue (applyEvents (QState.init 1) [.setOn false, .enq jobK1]) jobK2).pending,
            x.id ≠ jobK1.id)
      ∧ 2 ≤ outstandingForKey (enqueue (applyEvents (QState.init 1) [.enq jobK1]) jobK2) jobK2.key
      ∧ DedupeWF (applyEvents (QState.init 1) [.enq jobK1]).dedupe := by
  refine ⟨?_, ?_, ?_⟩
  · exact (dedup_key_registration (applyEvents (QState.init 1) [.setOn false, .enq jobK1])
      jobK2 jobK1).1 (by decide) (by decide) (by decide)
  · exact (dedup_key_registration (applyEvents (QState.init 1) [.enq jobK1])
      jobK2 jobK1).2.1 (by decide) (by decide) (by decide) (by decide) (by decide)
  · exact ((dedup_key_registration (QState.init 0) jobK1 jobK1).2.2 1 [.enq jobK1])

/-! ### Fresh job ids -/

/-- The job id `x` occurs nowhere in the queue: it was never enqueued. -/
def qFreshId (q : QState) (x : Nat) : Prop :=
  (∀ j ∈ q.pending, j.id ≠ x) ∧ (∀ j ∈ q.inflight, j.id ≠ x)
    ∧ (∀ j ∈ q.executing, j.id ≠ x) ∧ (∀ p ∈ q.delayed, p.1.id ≠ x)
    ∧ (∀ p ∈ q.dedupe, p.2.id ≠ x) ∧ x ∉ q.startedLog ∧ x ∉ q.aborted

instance (q : QState) (x : Nat) : Decidable (qFreshId q x) := by
  unfold qFreshId
  infer_instance

theorem mapSet_mem {m : List (String × Job)} {k : String} {v : Job}
    {p : String × Job} (h : p ∈ mapSet m k v) : p ∈ m ∨ p = (k, v) := by
  unfold mapSet at h
  split at h
  · rw [List.mem_map] at h
    obtain ⟨q, hq, hqe⟩ := h
    by_cases hqk : (q.1 == k) = true
    · rw [if_pos hqk] at hqe
      exact Or.inr hqe.symm
    · rw [if_neg hqk] at hqe
      exact Or.inl (hqe ▸ hq)
  · rcases List.mem_append.mp h with h1 | h1
    · exact Or.inl h1
    · simp only [List.mem_singleton] at h1
      exact Or.inr h1

theorem mapGet_mem {m : List (String × Job)} {k : String} {ex : Job}
    (h : mapGet m k = some ex) : ∃ p ∈ m, p.2 = ex := by
  unfold mapGet at h
  cases hf : m.find? (fun p => p.1 == k) with
  | none => rw [hf] at h; cases h
  | some p0 =>
    rw [hf] at h
    simp only [Option.map_some'] at h
    exact ⟨p0, List.mem_of_find?_eq_some hf, Option.some.inj h⟩

theorem sa_dedupe_sub (fuel : Nat) (s : QState) {p : String × Job}
    (h : p ∈ (scheduleAux fuel s).dedupe) : p ∈ s.dedupe := by
  induction fuel generalizing s with
  | zero => exact h
  | succ n ih =>
    rw [scheduleAux] at h
    split at h
    · split at h
      next heq => exact h
      next j rest heq =>
        split at h
        · have h1 := ih _ h
          exact List.mem_of_mem_filter h1
        · have h1 := ih _ h
          exact h1
    · exact h

theorem sa_fresh (fuel : Nat) (s : QState) {x : Nat}
    (h : qFreshId s x) : qFreshId (scheduleAux fuel s) x := by
  obtain ⟨hp, hi, he, hd, hm, hs, ha⟩ := h
  refine ⟨?_, ?_, ?_, ?_, ?_, ?_, ?_⟩
  · intro j hj
    exact hp j (sa_pending_sub _ _ hj)
  · intro j hj
    rcases sa_inflight_src _ _ hj with h1 | h1
    · exact hi j h1
    · exact hp j h1
  · intro j hj
    rcases sa_executing_src _ _ hj with h1 | h1
    · exact he j h1
    · exact hp j h1.1
  · intro p hpm
    rw [sa_delayed] at hpm
    exact hd p hpm
  · intro p hpm
    exact hm p (sa_dedupe_sub _ _ hpm)
  · intro hmem
    rcases sa_started_src _ _ hmem with h1 | h1
    · exact hs h1
    · obtain ⟨j, hj, hjid, _⟩ := h1
      exact hp j hj hjid
  · rw [sa_aborted]
    exact ha

theorem schedule_fresh {s : QState} {x : Nat} (h : qFreshId s x) :
    qFreshId (schedule s) x := by
  unfold schedule
  split
  · exact sa_fresh _ _ h
  · exact h

theorem qFresh_applyEvent (q : QState) (e : QEvent) {x : Nat}
    (h : qFreshId q x) (he : ∀ j, e = QEvent.enq j → j.id ≠ x) :
    qFreshId (applyEvent q e) x := by
  obtain ⟨hp, hi, hex, hd, hm, hs, ha⟩ := h
  cases e with
  | enq j =>
    have hjx : j.id ≠ x := he j rfl
    refine schedule_fresh ?_
    have hpre : qFreshId (enqueuePre q j) x := by
      unfold enqueuePre
      split
      next ex heq =>
        split
        · exact ⟨hp, hi, hex, hd, hm, hs, ha⟩
        · refine ⟨?_, hi, hex, hd, hm, hs, ?_⟩
          · intro j' hj'
            exact hp j' (List.mem_of_mem_filter hj')
          · intro hcon
            rcases List.mem_cons.mp hcon with h1 | h1
            · obtain ⟨p0, hp0, hp0e⟩ := mapGet_mem heq
              exact hm p0 hp0 (hp0e ▸ h1.symm)
            · exact ha h1
      next heq => exact ⟨hp, hi, hex, hd, hm, hs, ha⟩
    obtain ⟨hp', hi', hex', hd', hm', hs', ha'⟩ := hpre
    refine ⟨?_, hi', hex', hd', ?_, hs', ha'⟩
    · intro j' hj'
      rw [sortPending, List.mem_insertionSort] at hj'
      rcases List.mem_append.mp hj' with h1 | h1
      · exact hp' j' h1
      · simp only [List.mem_singleton] at h1
        exact h1 ▸ hjx
    · intro p hpm
      rcases mapSet_mem hpm with h1 | h1
      · exact hm' p h1
      · rw [h1]
        exact hjx
  | setOn b =>
    simp only [applyEvent, setOnline]
    split
    · exact schedule_fresh ⟨hp, hi, hex, hd, hm, hs, ha⟩
    · exact ⟨hp, hi, hex, hd, hm, hs, ha⟩
  | updateConc n =>
    exact schedule_fresh ⟨hp, hi, hex, hd, hm, hs, ha⟩
  | cancelKey k =>
    simp only [applyEvent, cancelByKey]
    cases hg : mapGet q.dedupe k with
    | none => exact ⟨hp, hi, hex, hd, hm, hs, ha⟩
    | some ex =>
      refine ⟨?_, ?_, hex, hd, ?_, hs, ?_⟩
      · intro j' hj'
        exact hp j' (List.mem_of_mem_filter hj')
      · intro j' hj'
        exact hi j' (List.mem_of_mem_filter hj')
      · intro p hpm
        exact hm p (List.mem_of_mem_filter hpm)
      · intro hcon
        rcases List.mem_cons.mp hcon with h1 | h1
        · obtain ⟨p0, hp0, hp0e⟩ := mapGet_mem hg
          exact hm p0 hp0 (hp0e ▸ h1.symm)
        · exact ha h1
  | finOk i =>
    simp only [applyEvent, finishOk]
    cases q.executing.find? (fun y => y.id == i) with
    | none => exact ⟨hp, hi, hex, hd, hm, hs, ha⟩
    | some j =>
      refine schedule_fresh ⟨hp, ?_, ?_, hd, ?_, hs, ha⟩
      · intro j' hj'
        exact hi j' (List.mem_of_mem_filter hj')
      · intro j' hj'
        exact hex j' (List.mem_of_mem_filter hj')
      · intro p hpm
        exact hm p (List.mem_of_mem_filter hpm)
  | finErr i =>
    simp only [applyEvent, finishErr]
    cases hf : q.executing.find? (fun y => y.id == i) with
    | none => exact ⟨hp, hi, hex, hd, hm, hs, ha⟩
    | some j =>
      have hji : j ∈ q.executing := List.mem_of_find?_eq_some hf
      have hifilt : ∀ j' ∈ q.inflight.filter (fun y => !(y.id == i)), j'.id ≠ x :=
        fun j' hj' => hi j' (List.mem_of_mem_filter hj')
      have hxfilt : ∀ j' ∈ q.executing.filter (fun y => !(y.id == i)), j'.id ≠ x :=
        fun j' hj' => hex j' (List.mem_of_mem_filter hj')
      have hmdel : ∀ p ∈ mapDel q.dedupe j.key, p.2.id ≠ x :=
        fun p hpm => hm p (List.mem_of_mem_filter hpm)
      simp only
      split
      · exact schedule_fresh ⟨hp, hifilt, hxfilt, hd, hmdel, hs, ha⟩
      · split
        · refine schedule_fresh ⟨hp, hifilt, hxfilt, ?_, hm, hs, ha⟩
          intro p hpm
          rcases List.mem_append.mp hpm with h1 | h1
          · exact hd p h1
          · simp only [List.mem_singleton] at h1
            rw [h1]
            exact hex j hji
        · exact schedule_fresh ⟨hp, hifilt, hxfilt, hd, hmdel, hs, ha⟩
  | timer i =>
    simp only [applyEvent, timerFire]
    cases hf : q.delayed.find? (fun p => p.1.id == i) with
    | none => exact ⟨hp, hi, hex, hd, hm, hs, ha⟩
    | some pr =>
      have hpr : pr ∈ q.delayed := List.mem_of_find?_eq_some hf
      refine schedule_fresh ⟨?_, ?_, hex, ?_, hm, hs, ha⟩
      · intro j' hj'
        rw [sortPending, List.mem_insertionSort] at hj'
        rcases List.mem_append.mp hj' with h1 | h1
        · exact hp j' h1
        · simp only [List.mem_singleton] at h1
          rw [h1]
          exact hd pr hpr
      · intro j' hj'
        exact hi j' (List.mem_of_mem_filter hj')
      · intro p hpm
        exact hd p (List.mem_of_mem_filter hpm)

/-! ## Claim C2 (latest wins among not-yet-started same-key jobs) -/

/-- The state reached in the C2 counterexample just before the later job
is enqueued: with bound 1, job 1 (key "k") starts; job 2 (key "k") is
enqueued behind it; the queue goes offline; job 1 completes — and its
completion handler deletes dedup key "k", which at that point registers
job 2. -/
def c2Stale : QState :=
  applyEvents (QState.init 1) [.enq jobK1, .enq jobK2, .setOn false, .finOk 1]

/-- Counterexample to claim C2: in `c2Stale` neither job 2 nor job 3 has
started, yet enqueueing job 3 (same key "k") does not cancel job 2 — the
completion of job 1 already erased the dedup registration — and job 2
later starts and completes.  The earlier of two same-key jobs enqueued
before either started reaches `completed`, which the claim rules out. -/
theorem dedup_earlier_job_still_completes :
    jobK2.key = jobK3.key ∧ jobK2.id ≠ jobK3.id
      ∧ jobK2.id ∉ c2Stale.startedLog ∧ jobK3.id ∉ c2Stale.startedLog
      ∧ jobK2.id ∉ (applyEvent c2Stale (.enq jobK3)).aborted
      ∧ jobK2.id ∈ (applyEvents c2Stale [.enq jobK3, .setOn true, .finOk 2]).completedLog := by
  refine ⟨by decide, by decide, by decide, by decide, by decide, by decide⟩

/-- Claim C2, amended: for two same-key jobs A then B enqueued while
neither has started, *provided A is still the job registered in the dedup
map for that key when B is enqueued* (no same-key completion erased the
registration in between), B's enqueue aborts A and removes it from the
pending set, and A never starts and never reaches `completed` afterwards —
only B can complete. -/
theorem dedup_latest_wins_when_registered (conc : Nat) (pre es : List QEvent)
    (A B : Job)
    (hkey : mapGet (applyEvents (QState.init conc) pre).dedupe B.key = some A)
    (hns : A.id ∉ (applyEvents (QState.init conc) pre).startedLog)
    (hid : A.id ≠ B.id) :
    A.id ∈ (applyEvent (applyEvents (QState.init conc) pre) (.enq B)).aborted
      ∧ (∀ x ∈ (applyEvent (applyEvents (QState.init conc) pre) (.enq B)).pending, x.id ≠ A.id)
      ∧ A.id ∉ (applyEvents (applyEvents (QState.init conc) pre) (.enq B :: es)).startedLog
      ∧ A.id ∉ (applyEvents (applyEvents (QState.init conc) pre) (.enq B :: es)).completedLog := by
  have hcl : Closed (applyEvents (QState.init conc) pre) :=
    closed_trace pre _ (closed_init conc)
  set s1 := applyEvents (QState.init conc) pre with hs1
  have hnifl : inflightHas s1 A.id = false := by
    rw [inflightHas]
    by_contra hcon
    rw [Bool.not_eq_false, List.any_eq_true] at hcon
    obtain ⟨x, hx, hxid⟩ := hcon
    rw [beq_iff_eq] at hxid
    exact hns (hxid ▸ hcl.1 x hx)
  have hpre : enqueuePre s1 B =
      { s1 with aborted := A.id :: s1.aborted,
                pending := s1.pending.filter fun x => !(x.id == A.id) } := by
    unfold enqueuePre
    rw [hkey]
    simp only [hnifl]
    simp
  have hmidNS : NonStart A.id
      { enqueuePre s1 B with
          pending := sortPending ((enqueuePre s1 B).pending ++ [B]),
          dedupe := mapSet (enqueuePre s1 B).dedupe B.key B } := by
    refine ⟨?_, ?_, ?_, ?_⟩
    · show A.id ∈ (enqueuePre s1 B).aborted
      rw [hpre]
      exact List.mem_cons_self _ _
    · show A.id ∉ (enqueuePre s1 B).startedLog
      rw [hpre]
      exact hns
    · show A.id ∉ (enqueuePre s1 B).completedLog
      rw [hpre]
      intro hcon
      exact hns (hcl.2.2.2 _ hcon)
    · intro x hx
      have hx1 : x ∈ (enqueuePre s1 B).executing := hx
      rw [hpre] at hx1
      intro hxeq
      exact hns (hxeq ▸ hcl.2.1 x hx1)
  have htNS : NonStart A.id (applyEvent s1 (.enq B)) := schedule_nonStart hmidNS
  refine ⟨htNS.1, ?_, ?_, ?_⟩
  · intro x hx
    have hx1 := schedule_pending_sub hx
    have hx2 : x ∈ sortPending ((enqueuePre s1 B).pending ++ [B]) := hx1
    rw [sortPending, List.mem_insertionSort] at hx2
    rcases List.mem_append.mp hx2 with h1 | h1
    · rw [hpre] at h1
      have := List.of_mem_filter h1
      simpa using this
    · simp only [List.mem_singleton] at h1
      subst h1
      exact fun hcon => hid hcon.symm
  · exact (nonStart_trace es _ htNS).2.1
  · exact (nonStart_trace es _ htNS).2.2.1

/-- A job with dedup key "w" for the C2 witness. -/
def jobW1 : Job := ⟨1, "w", .high, 0, 0⟩

/-- A later job with dedup key "w" for the C2 witness. -/
def jobW2 : Job := ⟨2, "w", .high, 0, 0⟩

/-- Witness for the amended C2: job 1 parked offline and still registered
when job 2 arrives is aborted, removed, and never completes. -/
theorem dedup_latest_wins_when_registered_witness :
    jobW1.id ∈ (applyEvent (applyEvents (QState.init 1) [.setOn false, .enq jobW1])
        (.enq jobW2)).aborted
      ∧ (∀ x ∈ (applyEvent (applyEvents (QState.init 1) [.setOn false, .enq jobW1])
          (.enq jobW2)).pending, x.id ≠ jobW1.id)
      ∧ jobW1.id ∉ (applyEvents (applyEvents (QState.init 1) [.setOn false, .enq jobW1])
          (.enq jobW2 :: [.setOn true, .finOk 2])).startedLog
      ∧ jobW1.id ∉ (applyEvents (applyEvents (QState.init 1) [.setOn false, .enq jobW1])
          (.enq jobW2 :: [.setOn true, .finOk 2])).completedLog :=
  dedup_latest_wins_when_registered 1 [.setOn false, .enq jobW1] [.setOn true, .finOk 2]
    jobW1 jobW2 (by decide) (by decide) (by decide)

/-! ## The SyncEngine offline-buffering layer (SyncEngine.ts)

`SyncEngine` keeps `statusState` (a `ConnectionState`), an `offlineJobs`
array, and the queue.  `syncFile` / `syncDelete` enqueue a freshly built
job when `statusState` is CONNECTED or SYNCING and park it in
`offlineJobs` otherwise (`build` below).  The `stateChanged` handler of
the bound `ConnectionManager` updates `statusState`, gates the queue with
`setOnline`, and on CONNECTED flushes the parked jobs into the queue in
their original order (`connChange` below).  The engine also updates
`statusState` from queue events (jobStarted, queue drained, jobFailed),
which never flushes (`engSetConn` below). -/

/-- `ConnectionState` from ConnectionManager.ts. -/
inductive ConnState where
  | disconnected
  | connecting
  | connected
  | syncing
  | error
deriving DecidableEq

/-- The gate used both by `syncFile` (enqueue vs park) and by the
`stateChanged` handler (`setOnline`): CONNECTED or SYNCING. -/
def connOnline : ConnState → Bool
  | .connected => true
  | .syncing => true
  | _ => false

/-- State of the engine layer: `statusState`, `offlineJobs`, the queue. -/
structure EngState where
  conn : ConnState
  offline : List Job
  q : QState
deriving DecidableEq

/-- Events driving the engine layer. -/
inductive EngEvent where
  | build (j : Job)
  | connChange (c : ConnState)
  | engSetConn (c : ConnState)
  | qev (e : QEvent)
deriving DecidableEq

/-- The flush loop in the `stateChanged` handler:
`for (const job of queued) this.queue.enqueue(job)`. -/
def flushQ (q : QState) (js : List Job) : QState := js.foldl enqueue q

/-- One step of the engine layer. -/
def applyEng (s : EngState) : EngEvent → EngState
  | .build j =>
      if connOnline s.conn then { s with q := enqueue s.q j }
      else { s with offline := s.offline ++ [j] }
  | .connChange c =>
      if c = ConnState.connected then
        { conn := c, offline := [],
          q := flushQ (setOnline s.q (connOnline c)) s.offline }
      else { s with conn := c, q := setOnline s.q (connOnline c) }
  | .engSetConn c => { s with conn := c }
  | .qev e => { s with q := applyEvent s.q e }

/-- A whole trace of the engine layer. -/
def applyEngs (s : EngState) (es : List EngEvent) : EngState :=
  es.foldl applyEng s

/-- Whether an engine event can interfere with a job parked under id `x`:
re-using the id in a new job, or transitioning to CONNECTED (which
flushes). -/
def stepKeepsParked (x : Nat) : EngEvent → Bool
  | .build j => !(j.id == x)
  | .qev (QEvent.enq j) => !(j.id == x)
  | .connChange c => !(c == ConnState.connected)
  | _ => true

/-- No event in the list flushes the offline buffer or re-uses id `x`. -/
def keepsParked (x : Nat) : List EngEvent → Bool
  | [] => true
  | e :: rest => stepKeepsParked x e && keepsParked x rest

/-- A job parked in the offline buffer whose id the queue has never seen. -/
def Parked (s : EngState) (j : Job) : Prop :=
  j ∈ s.offline ∧ qFreshId s.q j.id

theorem parked_applyEng (s : EngState) (e : EngEvent) {j : Job}
    (h : Parked s j) (he : stepKeepsParked j.id e = true) :
    Parked (applyEng s e) j := by
  obtain ⟨hoff, hfresh⟩ := h
  cases e with
  | build j' =>
    have hne : j'.id ≠ j.id := by
      simpa [stepKeepsParked] using he
    simp only [applyEng]
    split
    · exact ⟨hoff, qFresh_applyEvent s.q (.enq j') hfresh
        (fun jj hjj => by rw [show jj = j' from (QEvent.enq.inj hjj).symm]; exact hne)⟩
    · exact ⟨List.mem_append.mpr (Or.inl hoff), hfresh⟩
  | connChange c =>
    have hnc : c ≠ ConnState.connected := by
      simpa [stepKeepsParked] using he
    simp only [applyEng]
    rw [if_neg hnc]
    exact ⟨hoff, qFresh_applyEvent s.q (.setOn (connOnline c)) hfresh (fun _ h => by cases h)⟩
  | engSetConn c =>
    exact ⟨hoff, hfresh⟩
  | qev e' =>
    refine ⟨hoff, qFresh_applyEvent s.q e' hfresh ?_⟩
    intro jj hjj
    subst hjj
    simpa [stepKeepsParked] using he

theorem parked_trace (es : List EngEvent) (s : EngState) {j : Job}
    (h : Parked s j) (he : keepsParked j.id es = true) :
    Parked (applyEngs s es) j := by
  induction es generalizing s with
  | nil => exact h
  | cons e rest ih =>
    rw [keepsParked, Bool.and_eq_true] at he
    exact ih _ (parked_applyEng s e h he.1) he.2

/-! ### Relative start order of two equal-priority jobs -/

/-- How many pending jobs carry the id `x`. -/
def pendCount (l : List Job) (x : Nat) : Nat :=
  (l.filter fun y => y.id == x).length

/-- Invariant for the relative start order of a pair of jobs: `j1` was
enqueued before `j2` with the same priority.  Either (A) `j1` has started
and any start of `j2` comes strictly later in the start log; or (B) `j1`
was aborted before ever starting (dedup cancellation) and never starts; or
(C) neither has started, `j1` is pending, and whenever `j2` is pending it
sits behind `j1`, with no stray job carrying `j2`'s id. -/
def PairInv (j1 j2 : Job) (q : QState) : Prop :=
  (j1.id ∈ q.startedLog
      ∧ (j2.id ∈ q.startedLog →
          q.startedLog.indexOf j1.id < q.startedLog.indexOf j2.id))
    ∨ (j1.id ∈ q.aborted ∧ j1.id ∉ q.startedLog)
    ∨ (j1.id ∉ q.startedLog ∧ j1.id ∉ q.aborted ∧ j2.id ∉ q.startedLog
        ∧ j1 ∈ q.pending
        ∧ pendCount q.pending j2.id ≤ 1
        ∧ (∀ x ∈ q.pending, x.id = j2.id → x = j2)
        ∧ (j2 ∈ q.pending → List.Sublist [j1, j2] q.pending))

theorem pair_sublist_tail {α : Type} {a b f : α} {rest : List α}
    (h : List.Sublist [a, b] (f :: rest)) (hne : f ≠ a) :
    List.Sublist [a, b] rest := by
  cases h with
  | cons _ h1 => exact h1
  | cons₂ _ h1 => exact absurd rfl hne

theorem pendCount_cons_le (f : Job) (rest : List Job) (x : Nat) :
    pendCount rest x ≤ pendCount (f :: rest) x := by
  unfold pendCount
  rw [List.filter_cons]
  split
  · simp
  · exact le_refl _

/-- Appending one more id to the start log preserves "`j1` started, `j2`
starts later". -/
theorem startedA_append {l : List Nat} {a b : Nat} (x : Nat) (hab : a ≠ b)
    (hA : a ∈ l ∧ (b ∈ l → l.indexOf a < l.indexOf b)) :
    a ∈ l ++ [x]
      ∧ (b ∈ l ++ [x] → (l ++ [x]).indexOf a < (l ++ [x]).indexOf b) := by
  refine ⟨List.mem_append.mpr (Or.inl hA.1), ?_⟩
  intro hb
  rw [List.indexOf_append_of_mem hA.1]
  rcases List.mem_append.mp hb with h1 | h1
  · rw [List.indexOf_append_of_mem h1]
    exact hA.2 h1
  · simp only [List.mem_singleton] at h1
    subst h1
    by_cases hbl : b ∈ l
    · rw [List.indexOf_append_of_mem hbl]
      exact hA.2 hbl
    · rw [List.indexOf_append_of_not_mem hbl]
      have := List.indexOf_lt_length.mpr hA.1
      simp only [List.indexOf_cons_self]
      omega

/-- Preservation of the pair invariant through the scheduling loop. -/
theorem pairInv_sa (fuel : Nat) (s : QState) {j1 j2 : Job}
    (hid : j1.id ≠ j2.id) (hP : PairInv j1 j2 s) :
    PairInv j1 j2 (scheduleAux fuel s) := by
  induction fuel generalizing s with
  | zero => exact hP
  | succ n ih =>
    rw [scheduleAux]
    split
    · split
      next heq => exact hP
      next f rest heq =>
        split
        next hab =>
          refine ih _ ?_
          rcases hP with hA | hB | hC
          · exact Or.inl hA
          · exact Or.inr (Or.inl hB)
          · obtain ⟨h1, h2, h3, h4, h5, h6, h7⟩ := hC
            have hfne : f ≠ j1 := fun hcon => h2 (hcon ▸ hab)
            refine Or.inr (Or.inr ⟨h1, h2, h3, ?_, ?_, ?_, ?_⟩)
            · have hj1 : j1 ∈ f :: rest := heq ▸ h4
              rcases List.mem_cons.mp hj1 with hc | hc
              · exact absurd hc.symm hfne
              · exact hc
            · refine le_trans (pendCount_cons_le f rest j2.id) ?_
              rw [← heq]
              exact h5
            · intro x hx hxid
              exact h6 x (heq ▸ List.mem_cons_of_mem f hx) hxid
            · intro hj2
              have hsub := h7 (heq ▸ List.mem_cons_of_mem f hj2)
              rw [heq] at hsub
              exact pair_sublist_tail hsub hfne
        next hab =>
          refine ih _ ?_
          rcases hP with hA | hB | hC
          · exact Or.inl (startedA_append f.id hid hA)
          · refine Or.inr (Or.inl ⟨hB.1, ?_⟩)
            intro hcon
            rcases List.mem_append.mp hcon with h1 | h1
            · exact hB.2 h1
            · simp only [List.mem_singleton] at h1
              exact hab (h1 ▸ hB.1)
          · obtain ⟨h1, h2, h3, h4, h5, h6, h7⟩ := hC
            by_cases hf1 : f.id = j1.id
            · refine Or.inl ⟨List.mem_append.mpr (Or.inr (by simp [hf1])), ?_⟩
              intro hb
              rcases List.mem_append.mp hb with hb1 | hb1
              · exact absurd hb1 h3
              · simp only [List.mem_singleton] at hb1
                exact absurd (hf1 ▸ hb1) (fun hcon => hid hcon.symm)
            · by_cases hf2 : f.id = j2.id
              · exfalso
                have hfp : f ∈ s.pending := heq ▸ List.mem_cons_self f rest
                have hfj2 : f = j2 := h6 f hfp hf2
                have hsub := h7 (hfj2 ▸ hfp)
                rw [heq] at hsub
                have hfne1 : f ≠ j1 := fun hcon => hf1 (congrArg Job.id hcon)
                have hsub2 := pair_sublist_tail hsub hfne1
                have hj2rest : j2 ∈ rest := hsub2.subset (by simp)
                have hcnt : 2 ≤ pendCount (f :: rest) j2.id := by
                  unfold pendCount
                  rw [List.filter_cons_of_pos (by simp [hf2])]
                  have hmem : j2 ∈ rest.filter (fun y => y.id == j2.id) :=
                    List.mem_filter.mpr ⟨hj2rest, by simp⟩
                  have := List.length_pos_of_mem hmem
                  simp only [List.length_cons]
                  omega
                rw [← heq] at hcnt
                omega
              · have hfne1 : f ≠ j1 := fun hcon => hf1 (congrArg Job.id hcon)
                refine Or.inr (Or.inr ⟨?_, h2, ?_, ?_, ?_, ?_, ?_⟩)
                · intro hcon
                  rcases List.mem_append.mp hcon with hc | hc
                  · exact h1 hc
                  · simp only [List.mem_singleton] at hc
                    exact hf1 hc.symm
                · intro hcon
                  rcases List.mem_append.mp hcon with hc | hc
                  · exact h3 hc
                  · simp only [List.mem_singleton] at hc
                    exact hf2 hc.symm
                · have hj1 : j1 ∈ f :: rest := heq ▸ h4
                  rcases List.mem_cons.mp hj1 with hc | hc
                  · exact absurd hc.symm hfne1
                  · exact hc
                · refine le_trans (pendCount_cons_le f rest j2.id) ?_
                  rw [← heq]
                  exact h5
                · intro x hx hxid
                  exact h6 x (heq ▸ List.mem_cons_of_mem f hx) hxid
                · intro hj2
                  have hsub := h7 (heq ▸ List.mem_cons_of_mem f hj2)
                  rw [heq] at hsub
                  exact pair_sublist_tail hsub hfne1
    · exact hP

theorem pairInv_schedule {s : QState} {j1 j2 : Job}
    (hid : j1.id ≠ j2.id) (hP : PairInv j1 j2 s) :
    PairInv j1 j2 (schedule s) := by
  unfold schedule
  split
  · exact pairInv_sa _ _ hid hP
  · exact hP

/-- Pushing a job with a different id and stable-sorting preserves the
pending part of the pair invariant. -/
theorem pairC_push {j1 j2 jn : Job} {l : List Job}
    (hn2 : jn.id ≠ j2.id) (hrank : jobLe j1 j2)
    (h4 : j1 ∈ l) (h5 : pendCount l j2.id ≤ 1)
    (h6 : ∀ x ∈ l, x.id = j2.id → x = j2)
    (h7 : j2 ∈ l → List.Sublist [j1, j2] l) :
    j1 ∈ sortPending (l ++ [jn])
      ∧ pendCount (sortPending (l ++ [jn])) j2.id ≤ 1
      ∧ (∀ x ∈ sortPending (l ++ [jn]), x.id = j2.id → x = j2)
      ∧ (j2 ∈ sortPending (l ++ [jn]) →
          List.Sublist [j1, j2] (sortPending (l ++ [jn]))) := by
  refine ⟨?_, ?_, ?_, ?_⟩
  · rw [sortPending, List.mem_insertionSort]
    exact List.mem_append.mpr (Or.inl h4)
  · have hperm := List.perm_insertionSort jobLe (l ++ [jn])
    unfold pendCount sortPending
    rw [(hperm.filter (fun y => y.id == j2.id)).length_eq]
    rw [List.filter_append, List.filter_singleton]
    have hb : (jn.id == j2.id) = false := by simp [hn2]
    rw [hb]
    simpa using h5
  · intro x hx hxid
    rw [sortPending, List.mem_insertionSort] at hx
    rcases List.mem_append.mp hx with h1 | h1
    · exact h6 x h1 hxid
    · simp only [List.mem_singleton] at h1
      exact absurd (h1 ▸ hxid) hn2
  · intro hj2
    rw [sortPending, List.mem_insertionSort] at hj2
    have hj2l : j2 ∈ l := by
      rcases List.mem_append.mp hj2 with h1 | h1
      · exact h1
      · simp only [List.mem_singleton] at h1
        exact absurd (congrArg Job.id h1.symm) hn2
    have hsub : List.Sublist [j1, j2] (l ++ [jn]) :=
      (h7 hj2l).trans (List.sublist_append_left _ _)
    exact List.pair_sublist_insertionSort hrank hsub

/-- Filtering out an id different from `j1`'s preserves the pending part
of the pair invariant. -/
theorem pairC_filter {j1 j2 : Job} {l : List Job} (exid : Nat)
    (hne1 : exid ≠ j1.id)
    (h4 : j1 ∈ l) (h5 : pendCount l j2.id ≤ 1)
    (h6 : ∀ x ∈ l, x.id = j2.id → x = j2)
    (h7 : j2 ∈ l → List.Sublist [j1, j2] l) :
    j1 ∈ l.filter (fun x => !(x.id == exid))
      ∧ pendCount (l.filter (fun x => !(x.id == exid))) j2.id ≤ 1
      ∧ (∀ x ∈ l.filter (fun x => !(x.id == exid)), x.id = j2.id → x = j2)
      ∧ (j2 ∈ l.filter (fun x => !(x.id == exid)) →
          List.Sublist [j1, j2] (l.filter (fun x => !(x.id == exid)))) := by
  have hne1' : j1.id ≠ exid := fun h => hne1 h.symm
  refine ⟨?_, ?_, ?_, ?_⟩
  · refine List.mem_filter.mpr ⟨h4, ?_⟩
    simpa using hne1'
  · unfold pendCount at h5 ⊢
    have hsub : List.Sublist
        ((l.filter (fun x => !(x.id == exid))).filter (fun y => y.id == j2.id))
        (l.filter (fun y => y.id == j2.id)) :=
      (List.filter_sublist l).filter _
    exact le_trans hsub.length_le h5
  · intro x hx hxid
    exact h6 x (List.mem_of_mem_filter hx) hxid
  · intro hj2
    have hj2l : j2 ∈ l := List.mem_of_mem_filter hj2
    have hpred2 : (!(j2.id == exid)) = true := (List.mem_filter.mp hj2).2
    have hpred1 : (!(j1.id == exid)) = true := by
      simpa using hne1'
    have hsub2 := (h7 hj2l).filter (fun x => !(x.id == exid))
    simpa [hpred1, hpred2] using hsub2

/-- Preservation of the pair invariant by one queue event that does not
enqueue either id of the pair. -/
theorem pairInv_applyEvent (s : QState) (e : QEvent) {j1 j2 : Job}
    (hcl : Closed s) (hrank : jobLe j1 j2) (hid : j1.id ≠ j2.id)
    (hok : ∀ j', e = QEvent.enq j' → j'.id ≠ j1.id ∧ j'.id ≠ j2.id)
    (hP : PairInv j1 j2 s) : PairInv j1 j2 (applyEvent s e) := by
  cases e with
  | enq j' =>
    obtain ⟨hn1, hn2⟩ := hok j' rfl
    refine pairInv_schedule hid ?_
    have hpre : PairInv j1 j2 (enqueuePre s j') := by
      unfold enqueuePre
      split
      next ex heq =>
        split
        · exact hP
        · rcases hP with hA | hB | hC
          · exact Or.inl hA
          · exact Or.inr (Or.inl ⟨List.mem_cons_of_mem _ hB.1, hB.2⟩)
          · obtain ⟨h1, h2, h3, h4, h5, h6, h7⟩ := hC
            by_cases hex1 : ex.id = j1.id
            · refine Or.inr (Or.inl ⟨?_, h1⟩)
              rw [← hex1]
              exact List.mem_cons_self _ _
            · obtain ⟨k4, k5, k6, k7⟩ := pairC_filter ex.id hex1 h4 h5 h6 h7
              refine Or.inr (Or.inr ⟨h1, ?_, h3, k4, k5, k6, k7⟩)
              intro hcon
              rcases List.mem_cons.mp hcon with hc | hc
              · exact hex1 hc.symm
              · exact h2 hc
      next heq => exact hP
    rcases hpre with hA | hB | hC
    · exact Or.inl hA
    · exact Or.inr (Or.inl hB)
    · obtain ⟨h1, h2, h3, h4, h5, h6, h7⟩ := hC
      obtain ⟨k4, k5, k6, k7⟩ := pairC_push hn2 hrank h4 h5 h6 h7
      exact Or.inr (Or.inr ⟨h1, h2, h3, k4, k5, k6, k7⟩)
  | setOn b =>
    simp only [applyEvent, setOnline]
    split
    · exact pairInv_schedule hid hP
    · exact hP
  | updateConc n =>
    exact pairInv_schedule hid hP
  | cancelKey k =>
    simp only [applyEvent, cancelByKey]
    cases hg : mapGet s.dedupe k with
    | none => exact hP
    | some ex =>
      rcases hP with hA | hB | hC
      · exact Or.inl hA
      · exact Or.inr (Or.inl ⟨List.mem_cons_of_mem _ hB.1, hB.2⟩)
      · obtain ⟨h1, h2, h3, h4, h5, h6, h7⟩ := hC
        by_cases hex1 : ex.id = j1.id
        · refine Or.inr (Or.inl ⟨?_, h1⟩)
          rw [← hex1]
          exact List.mem_cons_self _ _
        · obtain ⟨k4, k5, k6, k7⟩ := pairC_filter ex.id hex1 h4 h5 h6 h7
          refine Or.inr (Or.inr ⟨h1, ?_, h3, k4, k5, k6, k7⟩)
          intro hcon
          rcases List.mem_cons.mp hcon with hc | hc
          · exact hex1 hc.symm
          · exact h2 hc
  | finOk i =>
    simp only [applyEvent, finishOk]
    cases s.executing.find? (fun y => y.id == i) with
    | none => exact hP
    | some j => exact pairInv_schedule hid hP
  | finErr i =>
    simp only [applyEvent, finishErr]
    cases s.executing.find? (fun y => y.id == i) with
    | none => exact hP
    | some j =>
      simp only
      split
      · exact pairInv_schedule hid hP
      · split
        · exact pairInv_schedule hid hP
        · exact pairInv_schedule hid hP
  | timer i =>
    simp only [applyEvent, timerFire]
    cases hf : s.delayed.find? (fun p => p.1.id == i) with
    | none => exact hP
    | some pr =>
      have hpr : pr ∈ s.delayed := List.mem_of_find?_eq_some hf
      have hstart : pr.1.id ∈ s.startedLog := hcl.2.2.1 pr hpr
      refine pairInv_schedule hid ?_
      rcases hP with hA | hB | hC
      · exact Or.inl hA
      · exact Or.inr (Or.inl hB)
      · obtain ⟨h1, h2, h3, h4, h5, h6, h7⟩ := hC
        have hn2 : pr.1.id ≠ j2.id := fun hcon => h3 (hcon ▸ hstart)
        obtain ⟨k4, k5, k6, k7⟩ := pairC_push hn2 hrank h4 h5 h6 h7
        exact Or.inr (Or.inr ⟨h1, h2, h3, k4, k5, k6, k7⟩)

theorem enqueuePre_fresh (q : QState) (j : Job) {x : Nat} (h : qFreshId q x) :
    qFreshId (enqueuePre q j) x := by
  unfold enqueuePre
  split
  next ex heq =>
    split
    · exact h
    · obtain ⟨hp, hi, hex, hd, hm, hs, ha⟩ := h
      refine ⟨fun j' hj' => hp j' (List.mem_of_mem_filter hj'), hi, hex, hd, hm, hs, ?_⟩
      intro hcon
      rcases List.mem_cons.mp hcon with hc | hc
      · obtain ⟨p0, hp0, hp0e⟩ := mapGet_mem heq
        exact hm p0 hp0 (hp0e ▸ hc.symm)
      · exact ha hc
  next => exact h

/-- Enqueueing the first job of the pair into a queue that has never seen
either id establishes the pair invariant. -/
theorem pairInv_enq_first (q : QState) {j1 j2 : Job}
    (hf1 : qFreshId q j1.id) (hf2 : qFreshId q j2.id) (hid : j1.id ≠ j2.id) :
    PairInv j1 j2 (enqueue q j1) := by
  refine pairInv_schedule hid ?_
  obtain ⟨hp1, _, _, _, _, hs1, ha1⟩ := enqueuePre_fresh q j1 hf1
  obtain ⟨hp2, _, _, _, _, hs2, _⟩ := enqueuePre_fresh q j1 hf2
  refine Or.inr (Or.inr ⟨hs1, ha1, hs2, ?_, ?_, ?_, ?_⟩)
  · show j1 ∈ sortPending ((enqueuePre q j1).pending ++ [j1])
    rw [sortPending, List.mem_insertionSort]
    exact List.mem_append.mpr (Or.inr (List.mem_singleton.mpr rfl))
  · show pendCount (sortPending ((enqueuePre q j1).pending ++ [j1])) j2.id ≤ 1
    have hperm := List.perm_insertionSort jobLe ((enqueuePre q j1).pending ++ [j1])
    unfold pendCount sortPending
    rw [(hperm.filter (fun y => y.id == j2.id)).length_eq]
    rw [List.filter_append, List.filter_singleton]
    have hb : (j1.id == j2.id) = false := by simp [hid]
    rw [hb]
    have hnil : (enqueuePre q j1).pending.filter (fun y => y.id == j2.id) = [] := by
      rw [List.filter_eq_nil]
      intro x hx
      simp only [Bool.not_eq_true, beq_eq_false_iff_ne, ne_eq]
      exact hp2 x hx
    rw [hnil]
    simp
  · intro x hx hxid
    rw [sortPending, List.mem_insertionSort] at hx
    rcases List.mem_append.mp hx with h1 | h1
    · exact absurd hxid (hp2 x h1)
    · simp only [List.mem_singleton] at h1
      exact absurd (h1 ▸ hxid) hid
  · intro hj2
    rw [sortPending, List.mem_insertionSort] at hj2
    rcases List.mem_append.mp hj2 with h1 | h1
    · exact absurd rfl (hp2 j2 h1)
    · simp only [List.mem_singleton] at h1
      exact absurd (congrArg Job.id h1) (fun h => hid h.symm)

/-- The dedup phase of an enqueue preserves the pair invariant. -/
theorem pairInv_enqueuePre (q : QState) (j : Job) {j1 j2 : Job}
    (hP : PairInv j1 j2 q) : PairInv j1 j2 (enqueuePre q j) := by
  unfold enqueuePre
  split
  next ex heq =>
    split
    · exact hP
    · rcases hP with hA | hB | hC
      · exact Or.inl hA
      · exact Or.inr (Or.inl ⟨List.mem_cons_of_mem _ hB.1, hB.2⟩)
      · obtain ⟨h1, h2, h3, h4, h5, h6, h7⟩ := hC
        by_cases hex1 : ex.id = j1.id
        · refine Or.inr (Or.inl ⟨?_, h1⟩)
          rw [← hex1]
          exact List.mem_cons_self _ _
        · obtain ⟨k4, k5, k6, k7⟩ := pairC_filter ex.id hex1 h4 h5 h6 h7
          refine Or.inr (Or.inr ⟨h1, ?_, h3, k4, k5, k6, k7⟩)
          intro hcon
          rcases List.mem_cons.mp hcon with hc | hc
          · exact hex1 hc.symm
          · exact h2 hc
  next => exact hP

/-- Enqueueing the second job of the pair (same priority, id fresh)
maintains the pair invariant: it lands behind the first one, or cancels
it, or the first one has already started. -/
theorem pairInv_enq_second (q : QState) {j1 j2 : Job}
    (hP : PairInv j1 j2 q) (hf2 : qFreshId q j2.id) (hrank : jobLe j1 j2)
    (hid : j1.id ≠ j2.id) : PairInv j1 j2 (enqueue q j2) := by
  refine pairInv_schedule hid ?_
  have hpre := pairInv_enqueuePre q j2 hP
  obtain ⟨hp2, _, _, _, _, hs2, _⟩ := enqueuePre_fresh q j2 hf2
  rcases hpre with hA | hB | hC
  · exact Or.inl hA
  · exact Or.inr (Or.inl hB)
  · obtain ⟨h1, h2, h3, h4, h5, h6, h7⟩ := hC
    refine Or.inr (Or.inr ⟨h1, h2, h3, ?_, ?_, ?_, ?_⟩)
    · show j1 ∈ sortPending ((enqueuePre q j2).pending ++ [j2])
      rw [sortPending, List.mem_insertionSort]
      exact List.mem_append.mpr (Or.inl h4)
    · show pendCount (sortPending ((enqueuePre q j2).pending ++ [j2])) j2.id ≤ 1
      have hperm := List.perm_insertionSort jobLe ((enqueuePre q j2).pending ++ [j2])
      unfold pendCount sortPending
      rw [(hperm.filter (fun y => y.id == j2.id)).length_eq]
      rw [List.filter_append, List.filter_singleton]
      have hb : (j2.id == j2.id) = true := by simp
      rw [hb]
      have hnil : (enqueuePre q j2).pending.filter (fun y => y.id == j2.id) = [] := by
        rw [List.filter_eq_nil]
        intro x hx
        simp only [Bool.not_eq_true, beq_eq_false_iff_ne, ne_eq]
        exact hp2 x hx
      rw [hnil]
      simp
    · intro x hx hxid
      rw [sortPending, List.mem_insertionSort] at hx
      rcases List.mem_append.mp hx with hc | hc
      · exact absurd hxid (hp2 x hc)
      · simp only [List.mem_singleton] at hc
        exact hc
    · intro hj2
      have hsub : List.Sublist [j1, j2] ((enqueuePre q j2).pending ++ [j2]) :=
        (List.singleton_sublist.mpr h4).append (List.Sublist.refl [j2])
      exact List.pair_sublist_insertionSort hrank hsub

/-- Flushing jobs whose ids avoid the pair preserves the invariant and
closedness. -/
theorem pairInv_flush (js : List Job) (q : QState) {j1 j2 : Job}
    (hcl : Closed q) (hrank : jobLe j1 j2) (hid : j1.id ≠ j2.id)
    (hids : ∀ x ∈ js, x.id ≠ j1.id ∧ x.id ≠ j2.id)
    (hP : PairInv j1 j2 q) :
    PairInv j1 j2 (flushQ q js) ∧ Closed (flushQ q js) := by
  induction js generalizing q with
  | nil => exact ⟨hP, hcl⟩
  | cons x rest ih =>
    have hx := hids x (List.mem_cons_self _ _)
    have hrest : ∀ y ∈ rest, y.id ≠ j1.id ∧ y.id ≠ j2.id :=
      fun y hy => hids y (List.mem_cons_of_mem _ hy)
    have h1 : PairInv j1 j2 (enqueue q x) :=
      pairInv_applyEvent q (.enq x) hcl hrank hid
        (fun j' hj' => by rw [show j' = x from (QEvent.enq.inj hj').symm]; exact hx) hP
    have h2 : Closed (enqueue q x) := closed_applyEvent q (.enq x) hcl
    exact ih _ h2 hrest h1

/-- Flushing jobs whose ids avoid `x` keeps `x` fresh. -/
theorem fresh_flush (js : List Job) (q : QState) {x : Nat}
    (h : qFreshId q x) (hids : ∀ y ∈ js, y.id ≠ x) :
    qFreshId (flushQ q js) x := by
  induction js generalizing q with
  | nil => exact h
  | cons y rest ih =>
    have hy := hids y (List.mem_cons_self _ _)
    have hrest : ∀ z ∈ rest, z.id ≠ x := fun z hz => hids z (List.mem_cons_of_mem _ hz)
    exact ih _ (qFresh_applyEvent q (.enq y) h
      (fun j' hj' => by rw [show j' = y from (QEvent.enq.inj hj').symm]; exact hy)) hrest

theorem closed_flush (js : List Job) (q : QState) (h : Closed q) :
    Closed (flushQ q js) := by
  induction js generalizing q with
  | nil => exact h
  | cons y rest ih => exact ih _ (closed_applyEvent q (.enq y) h)

/-- Flushing the whole buffer `o1 ++ j1 :: o2 ++ j2 :: o3` establishes the
pair invariant for `j1` before `j2`. -/
theorem pairInv_flush_full (o1 o2 o3 : List Job) (q : QState) {j1 j2 : Job}
    (hcl : Closed q) (hrank : jobLe j1 j2) (hid : j1.id ≠ j2.id)
    (hf1 : qFreshId q j1.id) (hf2 : qFreshId q j2.id)
    (ho1 : ∀ x ∈ o1, x.id ≠ j1.id ∧ x.id ≠ j2.id)
    (ho2 : ∀ x ∈ o2, x.id ≠ j1.id ∧ x.id ≠ j2.id)
    (ho3 : ∀ x ∈ o3, x.id ≠ j1.id ∧ x.id ≠ j2.id) :
    PairInv j1 j2 (flushQ q (o1 ++ j1 :: o2 ++ j2 :: o3))
      ∧ Closed (flushQ q (o1 ++ j1 :: o2 ++ j2 :: o3)) := by
  rw [flushQ, List.foldl_append, List.foldl_append, List.foldl_cons, List.foldl_cons]
  have hc1 : Closed (flushQ q o1) := closed_flush o1 q hcl
  have hf11 : qFreshId (flushQ q o1) j1.id :=
    fresh_flush o1 q hf1 (fun y hy => (ho1 y hy).1)
  have hf21 : qFreshId (flushQ q o1) j2.id :=
    fresh_flush o1 q hf2 (fun y hy => (ho1 y hy).2)
  have hP2 : PairInv j1 j2 (enqueue (flushQ q o1) j1) :=
    pairInv_enq_first (flushQ q o1) hf11 hf21 hid
  have hc2 : Closed (enqueue (flushQ q o1) j1) :=
    closed_applyEvent (flushQ q o1) (.enq j1) hc1
  have hf22 : qFreshId (enqueue (flushQ q o1) j1) j2.id :=
    qFresh_applyEvent (flushQ q o1) (.enq j1) hf21
      (fun j' hj' => by rw [show j' = j1 from (QEvent.enq.inj hj').symm]; exact hid)
  have h3 := pairInv_flush o2 (enqueue (flushQ q o1) j1) hc2 hrank hid ho2 hP2
  have hf23 : qFreshId (flushQ (enqueue (flushQ q o1) j1) o2) j2.id :=
    fresh_flush o2 _ hf22 (fun y hy => (ho2 y hy).2)
  have hP4 : PairInv j1 j2 (enqueue (flushQ (enqueue (flushQ q o1) j1) o2) j2) :=
    pairInv_enq_second _ h3.1 hf23 hrank hid
  have hc4 : Closed (enqueue (flushQ (enqueue (flushQ q o1) j1) o2) j2) :=
    closed_applyEvent _ (.enq j2) h3.2
  exact pairInv_flush o3 _ hc4 hrank hid ho3 hP4

/-- Whether an engine event avoids re-using either id of the pair. -/
def stepKeepsPair (x1 x2 : Nat) : EngEvent → Bool
  | .build j => !(j.id == x1) && !(j.id == x2)
  | .qev (QEvent.enq j) => !(j.id == x1) && !(j.id == x2)
  | _ => true

/-- No event in the list re-uses either id of the pair. -/
def keepsPair (x1 x2 : Nat) : List EngEvent → Bool
  | [] => true
  | e :: rest => stepKeepsPair x1 x2 e && keepsPair x1 x2 rest

/-- Engine-level bundle: the pair invariant and closedness of the queue,
and neither id of the pair parked offline. -/
def EngPair (j1 j2 : Job) (s : EngState) : Prop :=
  PairInv j1 j2 s.q ∧ Closed s.q
    ∧ ∀ x ∈ s.offline, x.id ≠ j1.id ∧ x.id ≠ j2.id

theorem engPair_applyEng (s : EngState) (e : EngEvent) {j1 j2 : Job}
    (hrank : jobLe j1 j2) (hid : j1.id ≠ j2.id)
    (hE : EngPair j1 j2 s) (he : stepKeepsPair j1.id j2.id e = true) :
    EngPair j1 j2 (applyEng s e) := by
  obtain ⟨hP, hcl, hoff⟩ := hE
  cases e with
  | build j' =>
    have hne : j'.id ≠ j1.id ∧ j'.id ≠ j2.id := by
      have := he
      simp only [stepKeepsPair, Bool.and_eq_true, Bool.not_eq_true',
        beq_eq_false_iff_ne, ne_eq] at this
      exact this
    simp only [applyEng]
    split
    · refine ⟨pairInv_applyEvent s.q (.enq j') hcl hrank hid
        (fun jj hjj => by rw [show jj = j' from (QEvent.enq.inj hjj).symm]; exact hne) hP,
        closed_applyEvent s.q (.enq j') hcl, hoff⟩
    · refine ⟨hP, hcl, ?_⟩
      intro x hx
      rcases List.mem_append.mp hx with h1 | h1
      · exact hoff x h1
      · simp only [List.mem_singleton] at h1
        exact h1 ▸ hne
  | connChange c =>
    have hP1 : PairInv j1 j2 (setOnline s.q (connOnline c)) :=
      pairInv_applyEvent s.q (.setOn (connOnline c)) hcl hrank hid
        (fun _ h => by cases h) hP
    have hc1 : Closed (setOnline s.q (connOnline c)) :=
      closed_applyEvent s.q (.setOn (connOnline c)) hcl
    simp only [applyEng]
    split
    · have hfl := pairInv_flush s.offline (setOnline s.q (connOnline c))
        hc1 hrank hid hoff hP1
      refine ⟨hfl.1, hfl.2, ?_⟩
      intro x hx
      cases hx
    · exact ⟨hP1, hc1, hoff⟩
  | engSetConn c =>
    exact ⟨hP, hcl, hoff⟩
  | qev e' =>
    refine ⟨pairInv_applyEvent s.q e' hcl hrank hid ?_ hP,
      closed_applyEvent s.q e' hcl, hoff⟩
    intro jj hjj
    subst hjj
    have := he
    simp only [stepKeepsPair, Bool.and_eq_true, Bool.not_eq_true',
      beq_eq_false_iff_ne, ne_eq] at this
    exact this

theorem engPair_trace (es : List EngEvent) (s : EngState) {j1 j2 : Job}
    (hrank : jobLe j1 j2) (hid : j1.id ≠ j2.id)
    (hE : EngPair j1 j2 s) (he : keepsPair j1.id j2.id es = true) :
    EngPair j1 j2 (applyEngs s es) := by
  induction es generalizing s with
  | nil => exact hE
  | cons e rest ih =>
    rw [keepsPair, Bool.and_eq_true] at he
    exact ih _ (engPair_applyEng s e hrank hid hE he.1) he.2

/-! ## Claim C9 (offline buffering) -/

/-- Claim C9: (i) a job built while the connection state is neither
CONNECTED nor SYNCING is parked in the offline buffer, leaving the live
queue untouched; (ii) a parked job never starts as long as no transition
to CONNECTED occurs and its id is not re-used; (iii) the transition to
CONNECTED flushes the whole buffer into the queue in original order (the
buffer empties); (iv) for two equal-priority parked jobs, the earlier one
starts strictly before the later one whenever the later one starts — with
the sole exception that the earlier one was cancelled by key
deduplication before ever starting. -/
theorem offline_buffering :
    (∀ (s : EngState) (j : Job), connOnline s.conn = false →
        applyEng s (.build j) = { s with offline := s.offline ++ [j] })
      ∧ (∀ (s : EngState) (es : List EngEvent) (j : Job), j ∈ s.offline →
          qFreshId s.q j.id → keepsParked j.id es = true →
          j.id ∉ (applyEngs s es).q.startedLog)
      ∧ (∀ s : EngState, (applyEng s (.connChange .connected)).offline = [])
      ∧ (∀ (s : EngState) (es : List EngEvent) (o1 o2 o3 : List Job) (j1 j2 : Job),
          s.offline = o1 ++ j1 :: o2 ++ j2 :: o3 →
          priorityRank j1.prio = priorityRank j2.prio → j1.id ≠ j2.id →
          Closed s.q → qFreshId s.q j1.id → qFreshId s.q j2.id →
          (∀ x ∈ o1, x.id ≠ j1.id ∧ x.id ≠ j2.id) →
          (∀ x ∈ o2, x.id ≠ j1.id ∧ x.id ≠ j2.id) →
          (∀ x ∈ o3, x.id ≠ j1.id ∧ x.id ≠ j2.id) →
          keepsPair j1.id j2.id es = true →
          j2.id ∈ (applyEngs s (.connChange .connected :: es)).q.startedLog →
          (j1.id ∈ (applyEngs s (.connChange .connected :: es)).q.startedLog
              ∧ (applyEngs s (.connChange .connected :: es)).q.startedLog.indexOf j1.id
                  < (applyEngs s (.connChange .connected :: es)).q.startedLog.indexOf j2.id)
            ∨ (j1.id ∈ (applyEngs s (.connChange .connected :: es)).q.aborted
                ∧ j1.id ∉ (applyEngs s (.connChange .connected :: es)).q.startedLog)) := by
  refine ⟨?_, ?_, ?_, ?_⟩
  · intro s j h
    simp [applyEng, h]
  · intro s es j hoff hfresh hkeep
    exact (parked_trace es s ⟨hoff, hfresh⟩ hkeep).2.2.2.2.2.2.1
  · intro s
    simp [applyEng]
  · intro s es o1 o2 o3 j1 j2 hoffeq hprio hid hcl hf1 hf2 ho1 ho2 ho3 hkeep
    have hrank : jobLe j1 j2 := le_of_eq hprio
    have hc1 : Closed (setOnline s.q (connOnline ConnState.connected)) :=
      closed_applyEvent s.q (.setOn (connOnline ConnState.connected)) hcl
    have hf1' : qFreshId (setOnline s.q (connOnline ConnState.connected)) j1.id :=
      qFresh_applyEvent s.q (.setOn (connOnline ConnState.connected)) hf1 (fun _ h => by cases h)
    have hf2' : qFreshId (setOnline s.q (connOnline ConnState.connected)) j2.id :=
      qFresh_applyEvent s.q (.setOn (connOnline ConnState.connected)) hf2 (fun _ h => by cases h)
    have hfull := pairInv_flush_full o1 o2 o3 (setOnline s.q (connOnline ConnState.connected))
      hc1 hrank hid hf1' hf2' ho1 ho2 ho3
    have hq : EngPair j1 j2
        ⟨ConnState.connected, [],
          flushQ (setOnline s.q (connOnline ConnState.connected)) s.offline⟩ := by
      refine ⟨?_, ?_, ?_⟩
      · show PairInv j1 j2 (flushQ (setOnline s.q (connOnline ConnState.connected)) s.offline)
        rw [hoffeq]
        exact hfull.1
      · show Closed (flushQ (setOnline s.q (connOnline ConnState.connected)) s.offline)
        rw [hoffeq]
        exact hfull.2
      · intro x hx
        cases hx
    have happ : applyEng s (.connChange .connected) =
        ⟨ConnState.connected, [],
          flushQ (setOnline s.q (connOnline ConnState.connected)) s.offline⟩ := by
      simp [applyEng]
    have hE : EngPair j1 j2 (applyEng s (.connChange .connected)) := by
      rw [happ]
      exact hq
    have hfinal : EngPair j1 j2 (applyEngs (applyEng s (.connChange .connected)) es) :=
      engPair_trace es _ hrank hid hE hkeep
    intro hj2s
    have hfin1 : PairInv j1 j2 (applyEngs s (.connChange .connected :: es)).q := hfinal.1
    rcases hfin1 with hA | hB | hC
    · exact Or.inl ⟨hA.1, hA.2 hj2s⟩
    · exact Or.inr hB
    · exact absurd hj2s hC.2.2.1

/-- A parked job for the C9 witness. -/
def jobP5 : Job := ⟨5, "p", .normal, 0, 0⟩

/-- A later parked job for the C9 witness. -/
def jobQ6 : Job := ⟨6, "q", .normal, 0, 0⟩

/-- A disconnected engine with two parked jobs. -/
def engW : EngState :=
  applyEngs ⟨ConnState.disconnected, [], QState.init 2⟩ [.build jobP5, .build jobQ6]

/-- Witness for C9 at concrete inputs: a build in state ERROR parks; a
parked job does not start while disconnected; the CONNECTED transition
empties the buffer; and after it the two parked jobs start in order. -/
theorem offline_buffering_witness :
    (applyEng ⟨ConnState.error, [], QState.init 1⟩ (.build jobP5)
        = { conn := ConnState.error, offline := [jobP5], q := QState.init 1 })
      ∧ jobP5.id ∉ (applyEngs engW [.engSetConn ConnState.error]).q.startedLog
      ∧ (applyEng engW (.connChange .connected)).offline = []
      ∧ (jobQ6.id ∈ (applyEngs engW (.connChange .connected :: [])).q.startedLog →
          (jobP5.id ∈ (applyEngs engW (.connChange .connected :: [])).q.startedLog
              ∧ (applyEngs engW (.connChange .connected :: [])).q.startedLog.indexOf jobP5.id
                  < (applyEngs engW (.connChange .connected :: [])).q.startedLog.indexOf jobQ6.id)
            ∨ (jobP5.id ∈ (applyEngs engW (.connChange .connected :: [])).q.aborted
                ∧ jobP5.id ∉ (applyEngs engW (.connChange .connected :: [])).q.startedLog)) := by
  refine ⟨?_, ?_, ?_, ?_⟩
  · exact offline_buffering.1 ⟨ConnState.error, [], QState.init 1⟩ jobP5 (by decide)
  · exact offline_buffering.2.1 engW [.engSetConn ConnState.error] jobP5
      (by decide) (by decide) (by decide)
  · exact offline_buffering.2.2.1 engW
  · exact offline_buffering.2.2.2 engW [] [] [] [] jobP5 jobQ6
      (by decide) (by decide) (by decide) (by decide) (by decide) (by decide)
      (by decide) (by decide) (by decide) (by decide)

end AcidBjorn

